import Mathlib

/-!
Shallow embedding of the Louvain community-detection kernels of
`cpp/src/community/louvain_kernels.cu` (cugraph), and verification of the
specification's claims about them.

Modelling conventions:
* CUDA floating-point weights (`weight_t`) are modelled as exact rationals `ℚ`.
* `vertex_t`/`edge_t` (32-bit signed ints holding non-negative ids) are
  modelled as `ℕ`; the one place the code stores `-1` sentinels (the
  `cluster_inverse` array and the per-warp `local_max_loc`/`local_max`
  initial values) is modelled with `ℤ` / with the literal `-1`.
* Device arrays are Lean lists; unchecked device indexing `a[i]` is `List.getD`.
* The sweep kernel `update_each_assignment_by_delta_modularity` is launched on
  a single warp (`blockIdx.x > 0` returns) and iterates over the vertices
  sequentially; its per-vertex work is spread over the 32 lanes of the warp
  (shared arrays `local_max`, `local_max_loc`) followed by an intra-warp tree
  reduction with strides 16, 8, 4, 2, 1.  We model the lockstep execution of
  that warp exactly: one lane's work is a left fold over its strided slice of
  the adjacency list, and the reduction is the five-step function `warpReduce`.
* `thrust` primitives are modelled by their documented semantics:
  `thrust::sort`/`stable_sort_by_key` by a stable merge sort, `thrust::unique`
  and `thrust::reduce_by_key` by structural recursion over consecutive
  duplicates, `thrust::reduce` by a sum.
-/

set_option maxRecDepth 40000

namespace CuLouvain

/-- A CSR graph view, mirroring `cugraph::experimental::GraphCSRView`:
`offsets` (length `n+1`), `indices` and `weights` (length `m`), with the
vertex and edge counts `n`, `m` stored separately (the device buffers backing
a view may be longer than the logical counts, as happens after contraction). -/
structure CSR where
  offsets : List ℕ
  indices : List ℕ
  weights : List ℚ
  n : ℕ
  m : ℕ

/-- `offsets[v]` with unchecked indexing. -/
def off (G : CSR) (v : ℕ) : ℕ := G.offsets.getD v 0

/-- `indices[e]` with unchecked indexing. -/
def ind (G : CSR) (e : ℕ) : ℕ := G.indices.getD e 0

/-- `weights[e]` with unchecked indexing. -/
def wt (G : CSR) (e : ℕ) : ℚ := G.weights.getD e 0

/-- Well-formedness of a CSR view (spec section 3): `offsets` has length
`n+1`, is non-decreasing with `offsets[0] = 0` and `offsets[n] = m`,
`indices`/`weights` have length `m`, and neighbour ids are in range. -/
def Valid (G : CSR) : Prop :=
  G.offsets.length = G.n + 1 ∧ G.indices.length = G.m ∧ G.weights.length = G.m ∧
  off G 0 = 0 ∧ off G G.n = G.m ∧
  (∀ v, v < G.n → off G v ≤ off G (v + 1)) ∧
  (∀ e, e < G.m → ind G e < G.n)

instance decValid (G : CSR) : Decidable (Valid G) := by
  unfold Valid
  infer_instance

/-- Per-vertex incident-weight sum: the body of the `compute_vertex_sums`
kernel for one `src` (`for (i = offsets[src]; i < offsets[src+1]; ++i) sum += weights[i]`). -/
def vertexSum (G : CSR) (v : ℕ) : ℚ :=
  ∑ e in Finset.Ico (off G v) (off G (v + 1)), wt G e

/-- The `compute_vertex_sums` kernel: `output[src] = Σ weights of edges of src`
for every `src < n_vertex`. -/
def compute_vertex_sums (G : CSR) : List ℚ :=
  (List.range G.n).map (vertexSum G)

/-- `Ai` in `kernel_modularity_no_matrix`: the summed weight of edges of `v`
whose endpoint lies in a different cluster than `v`. -/
def Avert (G : CSR) (C : List ℕ) (v : ℕ) : ℚ :=
  ∑ e in Finset.Ico (off G v) (off G (v + 1)),
    if C.getD (ind G e) 0 ≠ C.getD v 0 then wt G e else 0

/-- One entry of `Q_arr` in `kernel_modularity_no_matrix`:
`(Ai - ((ki * (m2 - cluster_sums[c_i])) / m2)) / m2`. -/
def Qterm (m2 : ℚ) (G : CSR) (C : List ℕ) (ks cs : List ℚ) (v : ℕ) : ℚ :=
  (Avert G C v - (ks.getD v 0 * (m2 - cs.getD (C.getD v 0) 0)) / m2) / m2

/-- The host `modularity` function: launch `kernel_modularity_no_matrix`,
reduce `Q_arr` over the vertices, and return the negation of the sum. -/
def modularity (m2 : ℚ) (G : CSR) (C : List ℕ) (ks cs : List ℚ) : ℚ :=
  -(∑ v in Finset.range G.n, Qterm m2 G C ks cs v)

/-- Modelled from the spec's words (section 4.2), for comparison with
`modularity`: "the negation of `(1/m2) · Σ_v [ A_v − k_v · (m2 − Σ_{C[v]}) / m2 ]`",
where `A_v` sums the weights of edges `(v,u)` with `C[u] ≠ C[v]`. -/
def modularity_spec (m2 : ℚ) (G : CSR) (C : List ℕ) (ks cs : List ℚ) : ℚ :=
  -((1 / m2) *
    ∑ v in Finset.range G.n,
      (Avert G C v - ks.getD v 0 * (m2 - cs.getD (C.getD v 0) 0) / m2))

/-- `new_cluster_sum` accumulated by the inner loop of
`update_each_assignment_by_delta_modularity`: weights of edges of `src`
to vertices `j ≠ src` whose cluster is `new_cluster`. -/
def newClusterSum (G : CSR) (C : List ℕ) (v newc : ℕ) : ℚ :=
  ∑ e in Finset.Ico (off G v) (off G (v + 1)),
    if ind G e ≠ v ∧ C.getD (ind G e) 0 = newc then wt G e else 0

/-- `old_cluster_sum` accumulated by the same loop: the `else if` branch, so
the cluster of `j` must differ from `new_cluster` and equal `old_cluster`. -/
def oldClusterSum (G : CSR) (C : List ℕ) (v newc oldc : ℕ) : ℚ :=
  ∑ e in Finset.Ico (off G v) (off G (v + 1)),
    if ind G e ≠ v ∧ ¬C.getD (ind G e) 0 = newc ∧ C.getD (ind G e) 0 = oldc
    then wt G e else 0

/-- `delta_mod` as computed by `update_each_assignment_by_delta_modularity`
for a move of `v` to cluster `newc`, with `degc_totw = vertex_weights[src]/m2`:
`new_cluster_sum - degc_totw*cluster_weights[new]
 - (old_cluster_sum - (degc_totw*(cluster_weights[old] - vertex_weights[src])))`. -/
def delta_modularity (m2 : ℚ) (G : CSR) (C : List ℕ) (vw cw : List ℚ)
    (v newc : ℕ) : ℚ :=
  newClusterSum G C v newc - (vw.getD v 0 / m2) * cw.getD newc 0 -
    (oldClusterSum G C v newc (C.getD v 0) -
      (vw.getD v 0 / m2) * (cw.getD (C.getD v 0) 0 - vw.getD v 0))

/-- `S_in(c)` from the spec (section 4.3): `Σ weight(v,w)` over neighbours
`w ≠ v` of `v` with `C[w] = c`. -/
def sIn (G : CSR) (C : List ℕ) (v c : ℕ) : ℚ :=
  ∑ e in Finset.Ico (off G v) (off G (v + 1)),
    if ind G e ≠ v ∧ C.getD (ind G e) 0 = c then wt G e else 0

/-- Modelled from the spec's words (section 4.3), for comparison with
`delta_modularity`:
`ΔQ(v,new) = S_in(new) − (k_v/m2)·Σ_new − [ S_in(old) − (k_v/m2)·(Σ_old − k_v) ]`. -/
def deltaQ_spec (m2 : ℚ) (G : CSR) (C : List ℕ) (vw cw : List ℚ)
    (v newc : ℕ) : ℚ :=
  sIn G C v newc - (vw.getD v 0 / m2) * cw.getD newc 0 -
    (sIn G C v (C.getD v 0) -
      (vw.getD v 0 / m2) * (cw.getD (C.getD v 0) 0 - vw.getD v 0))

/-- The gain the sweep computes at edge position `loc` of vertex `v`:
`delta_mod` for the move of `v` into the cluster of `indices[loc]`. -/
def dlt (m2 : ℚ) (G : CSR) (C : List ℕ) (vw cw : List ℚ) (v loc : ℕ) : ℚ :=
  delta_modularity m2 G C vw cw v (C.getD (ind G loc) 0)

/-- One step of the per-lane loop of `update_each_assignment_by_delta_modularity`
at edge position `loc` (state = current `(local_max[tid], local_max_loc[tid])`):
if `cluster[indices[loc]] ≠ old_cluster`, keep the larger of the current
maximum and `delta_mod`; otherwise record `0.0` at `loc` while the maximum is
still negative. -/
def laneStep (m2 : ℚ) (G : CSR) (C : List ℕ) (vw cw : List ℚ) (v : ℕ)
    (acc : ℚ × ℤ) (loc : ℕ) : ℚ × ℤ :=
  if C.getD (ind G loc) 0 ≠ C.getD v 0 then
    (if dlt m2 G C vw cw v loc > acc.1
     then (dlt m2 G C vw cw v loc, (loc : ℤ))
     else acc)
  else
    (if acc.1 < 0 then ((0 : ℚ), (loc : ℤ)) else acc)

/-- The edge positions visited by warp lane `t` for vertex `v`:
`loc = start_idx + tid; loc < end_idx; loc += WARP_SIZE` with `WARP_SIZE = 32`. -/
def laneLocs (start dend t : ℕ) : List ℕ :=
  List.range' (start + t) ((dend - (start + t) + 31) / 32) 32

/-- The final `(local_max[tid], local_max_loc[tid])` of lane `t` for vertex
`v`, starting from `(-1.0, -1)`. -/
def laneEntry (m2 : ℚ) (G : CSR) (C : List ℕ) (vw cw : List ℚ) (v t : ℕ) :
    ℚ × ℤ :=
  (laneLocs (off G v) (off G (v + 1)) t).foldl
    (laneStep m2 G C vw cw v) ((-1 : ℚ), (-1 : ℤ))

/-- One stride of the intra-warp tree reduction: lane `t < stride` replaces
its entry when `local_max[t + stride] > local_max[t]`. -/
def redStep (s : ℕ) (l : ℕ → ℚ × ℤ) : ℕ → ℚ × ℤ :=
  fun t => if t < s ∧ (l (t + s)).1 > (l t).1 then l (t + s) else l t

/-- The warp reduction with strides 16, 8, 4, 2, 1; the result read by lane 0. -/
def warpReduce (l : ℕ → ℚ × ℤ) : ℚ × ℤ :=
  redStep 1 (redStep 2 (redStep 4 (redStep 8 (redStep 16 l)))) 0

/-- The reduced `(local_max[0], local_max_loc[0])` for vertex `v`. -/
def bestMove (m2 : ℚ) (G : CSR) (C : List ℕ) (vw cw : List ℚ) (v : ℕ) :
    ℚ × ℤ :=
  warpReduce (laneEntry m2 G C vw cw v)

/-- The `tid == 0` tail of the sweep kernel for one vertex: if
`local_max[0] > 0` then
`cluster_weights[cluster[src]] -= vertex_weights[src];
 cluster[src] = cluster[indices[local_max_loc[0]]];
 cluster_weights[cluster[src]] += vertex_weights[src];`. -/
def processVertex (m2 : ℚ) (G : CSR) (vw : List ℚ) (st : List ℕ × List ℚ)
    (v : ℕ) : List ℕ × List ℚ :=
  if (bestMove m2 G st.1 vw st.2 v).1 > 0 then
    (st.1.set v
      (st.1.getD (ind G (bestMove m2 G st.1 vw st.2 v).2.toNat) 0),
     (st.2.set (st.1.getD v 0) (st.2.getD (st.1.getD v 0) 0 - vw.getD v 0)).set
       (st.1.getD (ind G (bestMove m2 G st.1 vw st.2 v).2.toNat) 0)
       ((st.2.set (st.1.getD v 0)
           (st.2.getD (st.1.getD v 0) 0 - vw.getD v 0)).getD
         (st.1.getD (ind G (bestMove m2 G st.1 vw st.2 v).2.toNat) 0) 0 +
        vw.getD v 0))
  else st

/-- The whole `update_each_assignment_by_delta_modularity` kernel: the single
working warp loops over `src = 0 .. n_vertex-1` in order, updating `cluster`
and `cluster_weights` in place. -/
def update_each_assignment_by_delta_modularity (m2 : ℚ) (G : CSR)
    (vw : List ℚ) (C : List ℕ) (cw : List ℚ) : List ℕ × List ℚ :=
  (List.range G.n).foldl (processVertex m2 G vw) (C, cw)

/-- The `while (new_Q > (cur_Q + 0.0001))` loop of
`update_clustering_by_delta_modularity`, with explicit fuel (the C++ loop has
no iteration bound of its own).  Returns the final cluster vector, cluster
weights, and the last computed `new_Q`. -/
def innerLoop (m2 : ℚ) (G : CSR) (vw : List ℚ) :
    ℕ → ℚ → ℚ → List ℕ → List ℚ → List ℕ × List ℚ × ℚ
  | 0, _, newQ, C, cw => (C, cw, newQ)
  | fuel + 1, curQ, newQ, C, cw =>
    if newQ > curQ + 1 / 10000 then
      let st := update_each_assignment_by_delta_modularity m2 G vw C cw
      innerLoop m2 G vw fuel newQ (modularity m2 G st.1 vw st.2) st.1 st.2
    else
      (C, cw, newQ)

/-- `update_clustering_by_delta_modularity`: evaluate the modularity, set
`cur_Q = new_Q - 1`, and run the sweep / re-evaluate loop (the graph's
`vertex_weights` serve as the `d_vertex_sums` argument of `modularity`). -/
def update_clustering_by_delta_modularity (fuel : ℕ) (m2 : ℚ) (G : CSR)
    (vw : List ℚ) (cw : List ℚ) (C : List ℕ) : List ℕ × List ℚ × ℚ :=
  let newQ := modularity m2 G C vw cw
  innerLoop m2 G vw fuel (newQ - 1) newQ C cw

/-- `thrust::unique` on a list: keep the first element of every run of
consecutive equal values (helper carrying the current group head). -/
def uniqueAux (x : ℕ) : List ℕ → List ℕ
  | [] => [x]
  | y :: rest => if x = y then uniqueAux x rest else x :: uniqueAux y rest

/-- `thrust::unique`. -/
def uniqueAdj : List ℕ → List ℕ
  | [] => []
  | x :: rest => uniqueAux x rest

/-- The scatter loop of `renumber_clusters`:
`d_cluster_inverse[d_tmp_array[i]] = i` for `i < new_num_clusters`. -/
def scatterInverse (U : List ℕ) (inv : List ℤ) : List ℤ :=
  (List.range U.length).foldl (fun a i => a.set (U.getD i 0) (i : ℤ)) inv

/-- `temp_array` after the sort/unique steps of `renumber_clusters`: the
sorted sequence of surviving cluster ids of the logical contents of
`cluster` (its first `size` entries). -/
def survivors (size : ℕ) (C : List ℕ) : List ℕ :=
  uniqueAdj ((C.take size).mergeSort (fun a b => decide (a ≤ b)))

/-- `cluster_inverse` after `renumber_clusters` filled it with the sentinel
`-1` (length `graph_num_vertices`) and scattered
`d_cluster_inverse[d_tmp_array[i]] = i`. -/
def renumberMap (graphN size : ℕ) (C : List ℕ) : List ℤ :=
  scatterInverse (survivors size C) (List.replicate graphN (-1 : ℤ))

/-- The `cluster` storage after the rewrite loop
`d_cluster[i] = d_cluster_inverse[d_cluster[i]]` over
`i < old_num_clusters = size`; entries past `size` keep their old contents.
The `Int.toNat` models storing the `int` inverse entry back into the `int`
cluster array; under the preconditions of the theorems below the sentinel
`-1` is never read, so no truncation occurs. -/
def renumberedC (graphN size : ℕ) (C : List ℕ) : List ℕ :=
  (List.range C.length).map
    (fun i => if i < size then
      ((renumberMap graphN size C).getD (C.getD i 0) (-1)).toNat
    else C.getD i 0)

/-- `renumber_clusters(graph_num_vertices, cluster, temp_array,
cluster_inverse, cluster_vec, stream)`.  `C` is the storage of the
`cluster` device vector and `size` its logical size at entry
(`old_num_clusters = cluster.size()`): the temporary is sorted-uniqued from
the logical contents, the inverse map is built, the first `size` storage
entries of `cluster` are rewritten through it, and finally
`cluster_vec[i] = d_cluster[cluster_vec[i]]` re-labels the top-level vector
through the rewritten storage.  (`cluster.resize(new_num_clusters)` shrinks
only the logical size; the storage and its contents survive, and the later
loops deliberately address the storage, so we model the storage.)  Returns
`(new_num_clusters, rewritten cluster storage, rewritten cluster_vec)`. -/
def renumber_clusters (graphN : ℕ) (C : List ℕ) (size : ℕ) (L : List ℕ) :
    ℕ × List ℕ × List ℕ :=
  ((survivors size C).length, renumberedC graphN size C,
    L.map (fun x => (renumberedC graphN size C).getD x 0))

/-- Modelled from the spec (section 4.5 step 1; `get_source_indices` lives in
`graph.hpp`, outside the sources at hand): expand the CSR row pointers into
the per-edge source array, i.e. `src[e] = v` for `offsets[v] ≤ e < offsets[v+1]`. -/
def get_source_indices (G : CSR) : List ℕ :=
  (List.range G.n).flatMap (fun v => List.replicate (off G (v + 1) - off G v) v)

/-- `thrust::reduce_by_key` helper: `cur` is the open group; a following
triple with the same `(src, dst)` key is merged by adding weights. -/
def rbkAux (cur : ℕ × ℕ × ℚ) : List (ℕ × ℕ × ℚ) → List (ℕ × ℕ × ℚ)
  | [] => [cur]
  | y :: rest =>
    if cur.1 = y.1 ∧ cur.2.1 = y.2.1 then
      rbkAux (cur.1, cur.2.1, cur.2.2 + y.2.2) rest
    else
      cur :: rbkAux y rest

/-- `thrust::reduce_by_key` over `(src, dst)`-keyed weighted edges with
`equal_to` on the key pair and `plus` on the weights. -/
def reduceByKey : List (ℕ × ℕ × ℚ) → List (ℕ × ℕ × ℚ)
  | [] => []
  | x :: rest => rbkAux x rest

/-- Modelled from the spec (section 4.5 step 5; `detail::fill_offset` lives in
`utilities/graph_utils.cuh`, outside the sources at hand): rebuild the CSR
offset array from the sorted source column, `offsets[v] = #{e | src[e] < v}`
for `v = 0 .. k`. -/
def fill_offset (srcs : List ℕ) (k : ℕ) : List ℕ :=
  (List.range (k + 1)).map (fun v => (srcs.filter (fun s => decide (s < v))).length)

/-- The renumbered COO of `generate_superverticies_graph`:
`(d_new_src[e], d_new_dst[e], d_new_weight[e]) =
 (clusters[old_src[e]], clusters[old_dst[e]], old_weight[e])`. -/
def cooEdges (G : CSR) (C : List ℕ) : List (ℕ × ℕ × ℚ) :=
  ((get_source_indices G).map (fun s => C.getD s 0)).zip
    (((G.indices.take G.m).map (fun d => C.getD d 0)).zip (G.weights.take G.m))

/-- The contracted edge list: stable sort by destination, then stable sort by
source (lexicographic by `(src', dst')` overall since the second sort is
stable), then `reduce_by_key` summing the weights of duplicate edges. -/
def contractedEdges (G : CSR) (C : List ℕ) : List (ℕ × ℕ × ℚ) :=
  reduceByKey
    (((cooEdges G C).mergeSort (fun a b => decide (a.2.1 ≤ b.2.1))).mergeSort
      (fun a b => decide (a.1 ≤ b.1)))

/-- `generate_superverticies_graph`: expand the CSR into a COO, remap both
endpoints through the clustering, sort, combine duplicate edges, and rebuild
the offsets; the view's counts become `new_number_of_vertices` and the
reduced edge count. -/
def generate_superverticies_graph (G : CSR) (newN : ℕ) (C : List ℕ) : CSR :=
  { offsets := fill_offset ((contractedEdges G C).map (fun t => t.1)) newN
    indices := (contractedEdges G C).map (fun t => t.2.1)
    weights := (contractedEdges G C).map (fun t => t.2.2)
    n := newN
    m := (contractedEdges G C).length }

/-- The result of `louvain`.  `num_level` models the `*num_level`
out-parameter.  `depth` is model instrumentation, not a value the C++
function stores anywhere: it counts the outer iterations that complete a
level (renumber + contraction), i.e. the dendrogram depth. -/
structure LouvainResult where
  num_level : ℕ
  final_modularity : ℚ
  labels : List ℕ
  depth : ℕ
deriving DecidableEq, Repr

/-- The `while (true)` dendrogram loop of `louvain`, with explicit fuel.
State: working graph `G`, cluster vector `C` (exact logical length — its
stale storage tail past the logical size is never read, see
`renumber_clusters`), top-level labels `L`, `best_modularity` so far, and the
instrumentation counter `depth`.  `n0` is the original vertex count
(`graph.number_of_vertices`), needed by `renumber_clusters`.  The source
never writes `*num_level` after the initial `*num_level = 0`, so every exit
returns `num_level = 0`. -/
def louvainLoop (m2 : ℚ) (n0 innerFuel : ℕ) :
    ℕ → CSR → List ℕ → List ℕ → ℚ → ℕ → LouvainResult
  | 0, _, _, L, best, depth => ⟨0, best, L, depth⟩
  | fuel + 1, G, C, L, best, depth =>
    let vw := compute_vertex_sums G
    let res := update_clustering_by_delta_modularity innerFuel m2 G vw vw C
    if (List.range G.n).all (fun v => res.1.getD v 0 = v) then
      ⟨0, best, L, depth⟩
    else
      let r := renumber_clusters n0 res.1 res.1.length L
      let G1 := generate_superverticies_graph G r.1 r.2.1
      louvainLoop m2 n0 innerFuel fuel G1 (List.range r.1) r.2.2 res.2.2
        (depth + 1)

/-- `louvain(graph, final_modularity, num_level, cluster_vec, max_iter,
stream)`: copy the graph, compute `m2` as the sum of all edge weights,
initialise `best_modularity = -1` and both cluster vectors to the identity,
and run the dendrogram loop.  (`max_iter` is accepted and ignored by the
source; the fuel arguments bound our model's recursion instead.) -/
def louvain (G : CSR) (outerFuel innerFuel : ℕ) : LouvainResult :=
  let m2 := (G.weights.take G.m).sum
  louvainLoop m2 G.n innerFuel outerFuel G (List.range G.n) (List.range G.n)
    (-1) 0

/-- The sum of all edge weights of the (logical) graph; `thrust::reduce` over
the weights, as used for `m2` in `louvain`. -/
def totalWeight (G : CSR) : ℚ := (G.weights.take G.m).sum

/-- Total weight of the edges from `u` to `x` (a CSR may hold parallel edges). -/
def Wmat (G : CSR) (u x : ℕ) : ℚ :=
  ∑ e in Finset.Ico (off G u) (off G (u + 1)), if ind G e = x then wt G e else 0

/-- The graph is undirected in the CSR sense assumed by the spec: the total
edge weight between any ordered pair of vertices is symmetric. -/
def Symm (G : CSR) : Prop :=
  ∀ u, u < G.n → ∀ x, x < G.n → Wmat G u x = Wmat G x u

instance decSymm (G : CSR) : Decidable (Symm G) := by
  unfold Symm
  infer_instance

/-- The true cluster-weight function: `Σ_c = Σ k_v` over vertices `v` of the
current graph with `C[v] = c`. -/
def csum (G : CSR) (C : List ℕ) (c : ℕ) : ℚ :=
  ∑ v in Finset.range G.n, if C.getD v 0 = c then vertexSum G v else 0

/-- The `cluster_weights` array agrees with the true cluster weights of `C`. -/
def Consistent (G : CSR) (C : List ℕ) (cw : List ℚ) : Prop :=
  ∀ c, c < cw.length → cw.getD c 0 = csum G C c

instance decConsistent (G : CSR) (C : List ℕ) (cw : List ℚ) :
    Decidable (Consistent G C cw) := by
  unfold Consistent
  infer_instance

/-- All entries of a cluster vector are below a bound. -/
def InRange (C : List ℕ) (b : ℕ) : Prop :=
  ∀ i, i < C.length → C.getD i 0 < b

/-- The modularity value of a clustering as a function of `C` alone, with the
vertex and cluster sums taken at their true values (what `modularity` returns
on consistent inputs). -/
def QofC (m2 : ℚ) (G : CSR) (C : List ℕ) : ℚ :=
  -(∑ v in Finset.range G.n,
    (Avert G C v - vertexSum G v * (m2 - csum G C (C.getD v 0)) / m2) / m2)

/-- Edge position `loc` is a move candidate for vertex `v`: it lies in `v`'s
adjacency slice and its endpoint is in a different cluster. -/
def IsCand (G : CSR) (C : List ℕ) (v loc : ℕ) : Prop :=
  off G v ≤ loc ∧ loc < off G (v + 1) ∧ C.getD (ind G loc) 0 ≠ C.getD v 0

instance decIsCand (G : CSR) (C : List ℕ) (v loc : ℕ) :
    Decidable (IsCand G C v loc) := by
  unfold IsCand
  infer_instance

/-- Modelled from the spec's words (section 4.3), for comparison with the
kernel's selection: among candidate edge positions with positive gain, pick
the one with the largest `ΔQ`, preferring the earliest adjacency-list
position (lowest edge offset) on ties; `none` when no candidate has positive
gain.  (A left fold that replaces the incumbent only on a strictly larger
gain realises the earliest-position tie-break.) -/
def specBestLoc (m2 : ℚ) (G : CSR) (C : List ℕ) (vw cw : List ℚ) (v : ℕ) :
    Option ℕ :=
  ((List.range' (off G v) (off G (v + 1) - off G v)).filter
    (fun loc => decide (C.getD (ind G loc) 0 ≠ C.getD v 0) &&
      decide (0 < delta_modularity m2 G C vw cw v (C.getD (ind G loc) 0)))).foldl
    (fun acc loc =>
      match acc with
      | none => some loc
      | some best =>
        if delta_modularity m2 G C vw cw v (C.getD (ind G loc) 0) >
            delta_modularity m2 G C vw cw v (C.getD (ind G best) 0)
        then some loc else some best)
    none

/-- The sweep kernel's vertex loop stopped after the first `t` vertices
(`update_each_assignment_by_delta_modularity` is `sweepUpTo` at `t = n`). -/
def sweepUpTo (m2 : ℚ) (G : CSR) (vw : List ℚ) (C : List ℕ) (cw : List ℚ)
    (t : ℕ) : List ℕ × List ℚ :=
  (List.range t).foldl (processVertex m2 G vw) (C, cw)

/-! ## General list helpers -/

theorem getD_set_self {α : Type} (l : List α) (i : ℕ) (a d : α)
    (h : i < l.length) : (l.set i a).getD i d = a := by
  rw [List.getD_eq_getElem?_getD, List.getElem?_set_self h, Option.getD_some]

theorem getD_set_ne {α : Type} (l : List α) {i j : ℕ} (a d : α) (h : i ≠ j) :
    (l.set i a).getD j d = l.getD j d := by
  rw [List.getD_eq_getElem?_getD, List.getElem?_set_ne h,
    ← List.getD_eq_getElem?_getD]

theorem sum_set_rat (l : List ℚ) (i : ℕ) (a : ℚ) (h : i < l.length) :
    (l.set i a).sum = l.sum + a - l.getD i 0 := by
  induction l generalizing i with
  | nil => simp at h
  | cons x xs ih =>
    cases i with
    | zero => simp [List.set, List.getD]; ring
    | succ j =>
      simp only [List.set, List.sum_cons]
      rw [ih j (by simpa using h)]
      simp [List.getD]
      ring

theorem getD_map_range {α : Type} (f : ℕ → α) (n i : ℕ) (d : α) (h : i < n) :
    ((List.range n).map f).getD i d = f i := by
  rw [List.getD_eq_getElem?_getD, List.getElem?_map]
  rw [List.getElem?_range h]
  rfl

/-! ## Claim C2: the modularity evaluator -/

theorem newClusterSum_eq_sIn (G : CSR) (C : List ℕ) (v c : ℕ) :
    newClusterSum G C v c = sIn G C v c := rfl

theorem oldClusterSum_eq_sIn (G : CSR) (C : List ℕ) (v newc oldc : ℕ)
    (h : newc ≠ oldc) : oldClusterSum G C v newc oldc = sIn G C v oldc := by
  unfold oldClusterSum sIn
  refine Finset.sum_congr rfl (fun e _ => ?_)
  rcases eq_or_ne (C.getD (ind G e) 0) oldc with hc | hc
  · rw [hc]
    simp [Ne.symm h]
  · rw [if_neg (fun hh => hc hh.2.2), if_neg (fun hh => hc hh.2)]

/-- Claim C2: for every graph, cluster assignment, vertex sums and cluster
sums, the `modularity` function returns the negation of
`(1/m2) · Σ_v [ A_v − k_v · (m2 − Σ_{C[v]}) / m2 ]`, where `A_v` sums the
weights of edges `(v,u)` with `C[u] ≠ C[v]`. -/
theorem claim_C2 (m2 : ℚ) (G : CSR) (C : List ℕ) (ks cs : List ℚ) :
    modularity m2 G C ks cs = modularity_spec m2 G C ks cs := by
  unfold modularity modularity_spec Qterm
  rw [← Finset.sum_div]
  ring

/-- Claim C3: for every vertex `v` and candidate cluster `newc ≠ C[v]`, the
gain computed by the sweep kernel equals the spec's
`S_in(new) − (k_v/m2)·Σ_new − [ S_in(old) − (k_v/m2)·(Σ_old − k_v) ]`. -/
theorem claim_C3 (m2 : ℚ) (G : CSR) (C : List ℕ) (vw cw : List ℚ)
    (v newc : ℕ) (h : newc ≠ C.getD v 0) :
    delta_modularity m2 G C vw cw v newc = deltaQ_spec m2 G C vw cw v newc := by
  unfold delta_modularity deltaQ_spec
  rw [oldClusterSum_eq_sIn G C v newc _ h, newClusterSum_eq_sIn]

/-- Witness for C3 at a concrete input (the 7-vertex weighted star used
throughout): moving vertex 0 to cluster 1 is a genuine candidate move and
the kernel gain agrees with the spec formula there. -/
theorem claim_C3_witness :
    (1 : ℕ) ≠ ([0,0,0,0,1,0,2] : List ℕ).getD 0 0 ∧
    delta_modularity 28 ⟨[0,6,7,8,9,10,11,12], [1,2,3,4,5,6,0,0,0,0,0,0],
        [1,1,1,5,1,5,1,1,1,5,1,5], 7, 12⟩ [0,0,0,0,1,0,2]
        [14,1,1,1,5,1,5] [18,5,5,0,0,0,0] 0 1 =
      deltaQ_spec 28 ⟨[0,6,7,8,9,10,11,12], [1,2,3,4,5,6,0,0,0,0,0,0],
        [1,1,1,5,1,5,1,1,1,5,1,5], 7, 12⟩ [0,0,0,0,1,0,2]
        [14,1,1,1,5,1,5] [18,5,5,0,0,0,0] 0 1 :=
  ⟨by decide, claim_C3 28 _ _ _ _ 0 1 (by decide)⟩

/-! ## Claims C6 and C8: the cluster compactor -/

theorem mem_uniqueAux (x a : ℕ) (l : List ℕ) :
    a ∈ uniqueAux x l ↔ a = x ∨ a ∈ l := by
  induction l generalizing x with
  | nil => simp [uniqueAux]
  | cons y rest ih =>
    by_cases h : x = y
    · rw [uniqueAux, if_pos h, ih]
      subst h
      simp only [List.mem_cons]
      tauto
    · rw [uniqueAux, if_neg h]
      simp [List.mem_cons, ih]

theorem mem_uniqueAdj (a : ℕ) (l : List ℕ) : a ∈ uniqueAdj l ↔ a ∈ l := by
  cases l with
  | nil => simp [uniqueAdj]
  | cons x rest =>
    show a ∈ uniqueAux x rest ↔ _
    rw [mem_uniqueAux]
    simp [List.mem_cons]

theorem pairwiseLT_uniqueAux (x : ℕ) (l : List ℕ)
    (h : List.Sorted (· ≤ ·) (x :: l)) :
    List.Pairwise (· < ·) (uniqueAux x l) := by
  induction l generalizing x with
  | nil => simp [uniqueAux]
  | cons y rest ih =>
    rw [List.sorted_cons] at h
    by_cases hxy : x = y
    · rw [uniqueAux, if_pos hxy]
      apply ih
      subst hxy
      rw [List.sorted_cons]
      exact ⟨fun b hb => h.1 b (List.mem_cons_of_mem _ hb),
        (List.sorted_cons.mp h.2).2⟩
    · rw [uniqueAux, if_neg hxy]
      constructor
      · intro b hb
        have hxylt : x < y :=
          lt_of_le_of_ne (h.1 y (List.mem_cons_self _ _)) hxy
        rw [mem_uniqueAux] at hb
        rcases hb with rfl | hb
        · exact hxylt
        · exact lt_of_lt_of_le hxylt ((List.sorted_cons.mp h.2).1 b hb)
      · exact ih y h.2

theorem pairwiseLT_uniqueAdj (l : List ℕ) (h : List.Sorted (· ≤ ·) l) :
    List.Pairwise (· < ·) (uniqueAdj l) := by
  cases l with
  | nil => simp [uniqueAdj]
  | cons x rest => exact pairwiseLT_uniqueAux x rest h

theorem sorted_msort (l : List ℕ) :
    List.Sorted (· ≤ ·) (l.mergeSort (fun a b => decide (a ≤ b))) := by
  have htrans : ∀ a b c : ℕ, decide (a ≤ b) = true → decide (b ≤ c) = true →
      decide (a ≤ c) = true := fun a b c h1 h2 =>
    decide_eq_true (le_trans (of_decide_eq_true h1) (of_decide_eq_true h2))
  have htotal : ∀ a b : ℕ, (decide (a ≤ b) || decide (b ≤ a)) = true := by
    intro a b
    rcases Nat.le_total a b with h | h <;> simp [h]
  exact (@List.sorted_mergeSort ℕ (fun a b => decide (a ≤ b)) htrans htotal
    l).imp (fun hab => of_decide_eq_true hab)

theorem foldl_set_length (l : List ℕ) (inv : List ℤ) (f : ℕ → ℕ)
    (g : ℕ → ℤ) :
    (l.foldl (fun a i => a.set (f i) (g i)) inv).length = inv.length := by
  induction l generalizing inv with
  | nil => rfl
  | cons x xs ih => simp [List.foldl, ih, List.length_set]

theorem scatterInverse_length (U : List ℕ) (inv : List ℤ) :
    (scatterInverse U inv).length = inv.length :=
  foldl_set_length _ _ _ _

theorem scatter_getD_aux (U : List ℕ) (inv : List ℤ) (hnd : U.Nodup)
    (hb : ∀ x ∈ U, x < inv.length) :
    ∀ k, k ≤ U.length → ∀ j, j < k →
      ((List.range k).foldl (fun a i => a.set (U.getD i 0) (i : ℤ))
        inv).getD (U.getD j 0) (-1) = (j : ℤ) := by
  intro k
  induction k with
  | zero => intro _ j hj; omega
  | succ k ih =>
    intro hk j hj
    rw [List.range_succ, List.foldl_append]
    simp only [List.foldl_cons, List.foldl_nil]
    rcases Nat.lt_or_ge j k with hjk | hjk
    · have hne : U.getD k 0 ≠ U.getD j 0 := by
        intro he
        have h1 : U.get ⟨k, by omega⟩ = U.get ⟨j, by omega⟩ := by
          have e1 : U.getD k 0 = U.get ⟨k, by omega⟩ := by
            rw [List.getD_eq_getElem U 0 (by omega)]; rfl
          have e2 : U.getD j 0 = U.get ⟨j, by omega⟩ := by
            rw [List.getD_eq_getElem U 0 (by omega)]; rfl
          rw [← e1, ← e2, he]
        have := List.nodup_iff_injective_get.mp hnd h1
        have : k = j := congrArg Fin.val this
        omega
      rw [getD_set_ne _ _ _ hne]
      exact ih (by omega) j hjk
    · have hjeq : j = k := by omega
      subst hjeq
      rw [getD_set_self]
      rw [foldl_set_length]
      apply hb
      rw [List.getD_eq_getElem U 0 (by omega)]
      exact List.getElem_mem _

theorem scatter_getD (U : List ℕ) (inv : List ℤ) (hnd : U.Nodup)
    (hb : ∀ x ∈ U, x < inv.length) (j : ℕ) (hj : j < U.length) :
    (scatterInverse U inv).getD (U.getD j 0) (-1) = (j : ℤ) :=
  scatter_getD_aux U inv hnd hb U.length le_rfl j hj

theorem mem_survivors (size : ℕ) (C : List ℕ) (a : ℕ) :
    a ∈ survivors size C ↔ a ∈ C.take size := by
  rw [survivors, mem_uniqueAdj]
  exact (List.mergeSort_perm (C.take size) _).mem_iff

theorem nodup_survivors (size : ℕ) (C : List ℕ) : (survivors size C).Nodup :=
  (pairwiseLT_uniqueAdj _ (sorted_msort _)).nodup

theorem mem_take_getD (C : List ℕ) (size : ℕ) (a : ℕ)
    (hsz : size ≤ C.length) (ha : a ∈ C.take size) :
    ∃ i, i < size ∧ C.getD i 0 = a := by
  rw [List.mem_take_iff_getElem] at ha
  obtain ⟨i, hi, hval⟩ := ha
  have hi2 : i < size := lt_of_lt_of_le hi (min_le_left _ _)
  refine ⟨i, hi2, ?_⟩
  rw [List.getD_eq_getElem C 0 (by omega)]
  exact hval

theorem getD_mem_take (C : List ℕ) (size i : ℕ) (hi : i < size)
    (hsz : size ≤ C.length) : C.getD i 0 ∈ C.take size := by
  rw [List.mem_take_iff_getElem]
  refine ⟨i, lt_min hi (by omega), ?_⟩
  rw [List.getD_eq_getElem C 0 (by omega)]

theorem renumberMap_getD (graphN size : ℕ) (C : List ℕ)
    (hCb : ∀ x ∈ survivors size C, x < graphN) (j : ℕ)
    (hj : j < (survivors size C).length) :
    (renumberMap graphN size C).getD ((survivors size C).getD j 0) (-1) =
      (j : ℤ) := by
  rw [renumberMap]
  exact scatter_getD _ _ (nodup_survivors size C)
    (by rw [List.length_replicate]; exact hCb) j hj

/-- The value written at position `i < size` by the compactor's rewrite loop
is the index of `C[i]` in the survivor list; it is `< k`, and conversely
every `j < k` is written somewhere. -/
theorem renumberedC_vals (graphN size : ℕ) (C : List ℕ)
    (hsz : size ≤ C.length)
    (hCb : ∀ i, i < size → C.getD i 0 < graphN) :
    (∀ i, i < size →
      (renumberedC graphN size C).getD i 0 < (survivors size C).length) ∧
    (∀ j, j < (survivors size C).length →
      ∃ i, i < size ∧ (renumberedC graphN size C).getD i 0 = j) := by
  have hUb : ∀ x ∈ survivors size C, x < graphN := by
    intro x hx
    obtain ⟨i, hi, he⟩ := mem_take_getD C size x hsz ((mem_survivors _ _ _).mp hx)
    rw [← he]
    exact hCb i hi
  have hget : ∀ i, i < size → (renumberedC graphN size C).getD i 0 =
      ((renumberMap graphN size C).getD (C.getD i 0) (-1)).toNat := by
    intro i hi
    rw [renumberedC, getD_map_range _ _ _ _ (by omega), if_pos hi]
  constructor
  · intro i hi
    have hmem : C.getD i 0 ∈ survivors size C :=
      (mem_survivors _ _ _).mpr (getD_mem_take C size i hi hsz)
    obtain ⟨j, hj, hval⟩ := List.mem_iff_getElem.mp hmem
    have hval2 : (survivors size C).getD j 0 = C.getD i 0 := by
      rw [List.getD_eq_getElem _ 0 hj]
      exact hval
    rw [hget i hi, ← hval2, renumberMap_getD graphN size C hUb j hj]
    simpa using hj
  · intro j hj
    have hmem : (survivors size C).getD j 0 ∈ C.take size := by
      rw [← mem_survivors]
      rw [List.getD_eq_getElem _ 0 hj]
      exact List.getElem_mem _
    obtain ⟨i, hi, he⟩ := mem_take_getD C size _ hsz hmem
    refine ⟨i, hi, ?_⟩
    rw [hget i hi, he, renumberMap_getD graphN size C hUb j hj]
    simp

/-- Claim C6: after the compactor runs, the set of values of the (rewritten)
cluster vector is exactly `[0, k)`, where `k` is the number of distinct
values of the cluster vector before compaction; the compactor returns `k`;
and every entry of the rewritten top-level label vector lies in `[0, k)`. -/
theorem claim_C6 (graphN size : ℕ) (C L : List ℕ)
    (hsz : size ≤ C.length)
    (hCb : ∀ i, i < size → C.getD i 0 < graphN)
    (hL : ∀ x ∈ L, x < size) :
    (∀ x, x ∈ (renumber_clusters graphN C size L).2.1.take size ↔
      x < (renumber_clusters graphN C size L).1) ∧
    (renumber_clusters graphN C size L).1 = (C.take size).dedup.length ∧
    (∀ x ∈ (renumber_clusters graphN C size L).2.2,
      x < (renumber_clusters graphN C size L).1) := by
  obtain ⟨hfwd, hbwd⟩ := renumberedC_vals graphN size C hsz hCb
  have hlen : (renumberedC graphN size C).length = C.length := by
    rw [renumberedC, List.length_map, List.length_range]
  have hr1 : (renumber_clusters graphN C size L).1 =
      (survivors size C).length := rfl
  have hr2 : (renumber_clusters graphN C size L).2.1 =
      renumberedC graphN size C := rfl
  have hr3 : (renumber_clusters graphN C size L).2.2 =
      L.map (fun x => (renumberedC graphN size C).getD x 0) := rfl
  refine ⟨?_, ?_, ?_⟩
  · intro x
    rw [hr1, hr2]
    constructor
    · intro hx
      obtain ⟨i, hi, he⟩ :=
        mem_take_getD _ size x (by omega) hx
      rw [← he]
      exact hfwd i hi
    · intro hx
      obtain ⟨i, hi, he⟩ := hbwd x hx
      rw [← he]
      exact getD_mem_take _ size i hi (by omega)
  · rw [hr1]
    have h1 : (C.take size).dedup.Nodup := List.nodup_dedup _
    have h2 : (survivors size C).toFinset = (C.take size).dedup.toFinset := by
      apply Finset.ext
      intro a
      simp only [List.mem_toFinset, List.mem_dedup]
      exact mem_survivors size C a
    exact (List.perm_of_nodup_nodup_toFinset_eq (nodup_survivors size C)
      h1 h2).length_eq
  · intro x hx
    rw [hr3] at hx
    rw [List.mem_map] at hx
    obtain ⟨y, hy, he⟩ := hx
    rw [hr1, ← he]
    exact hfwd y (hL y hy)

/-- Witness for C6 at a concrete state: `C = [3,3,1,2]` (4 current vertices,
3 surviving clusters), identity labels. -/
theorem claim_C6_witness :
    ((4 : ℕ) ≤ ([3,3,1,2] : List ℕ).length ∧
      (∀ i, i < 4 → ([3,3,1,2] : List ℕ).getD i 0 < 4) ∧
      (∀ x ∈ ([0,1,2,3] : List ℕ), x < 4)) ∧
    ((∀ x, x ∈ (renumber_clusters 4 [3,3,1,2] 4 [0,1,2,3]).2.1.take 4 ↔
      x < (renumber_clusters 4 [3,3,1,2] 4 [0,1,2,3]).1) ∧
    (renumber_clusters 4 [3,3,1,2] 4 [0,1,2,3]).1 =
      (([3,3,1,2] : List ℕ).take 4).dedup.length ∧
    (∀ x ∈ (renumber_clusters 4 [3,3,1,2] 4 [0,1,2,3]).2.2,
      x < (renumber_clusters 4 [3,3,1,2] 4 [0,1,2,3]).1)) :=
  ⟨⟨by decide, by decide, by decide⟩,
    claim_C6 4 4 [3,3,1,2] [0,1,2,3] (by decide) (by decide) (by decide)⟩

theorem uniqueAux_of_pairwise (x : ℕ) (l : List ℕ)
    (h : List.Pairwise (· < ·) (x :: l)) : uniqueAux x l = x :: l := by
  induction l generalizing x with
  | nil => rfl
  | cons y rest ih =>
    rw [List.pairwise_cons] at h
    have hxy : x ≠ y := Nat.ne_of_lt (h.1 y (List.mem_cons_self _ _))
    rw [uniqueAux, if_neg hxy, ih y h.2]

theorem map_getD_self (L : List ℕ) (f : ℕ → ℕ)
    (h : ∀ x ∈ L, f x = x) : L.map f = L := by
  induction L with
  | nil => rfl
  | cons a l ih =>
    rw [List.map_cons, h a (List.mem_cons_self _ _),
      ih (fun x hx => h x (List.mem_cons_of_mem _ hx))]

theorem survivors_of_identity (size : ℕ) (C : List ℕ)
    (hsz : size ≤ C.length) (hid : ∀ i, i < size → C.getD i 0 = i) :
    survivors size C = List.range size := by
  have htake : C.take size = List.range size := by
    apply List.ext_getElem
    · rw [List.length_take, List.length_range]; omega
    · intro n h1 h2
      rw [List.getElem_take, List.getElem_range]
      have h3 := hid n (by rw [List.length_take] at h1; omega)
      rw [List.getD_eq_getElem C 0
        (by rw [List.length_take] at h1; omega)] at h3
      exact h3
  rw [survivors, htake]
  rw [List.mergeSort_of_sorted
    ((List.pairwise_lt_range size).imp
      (fun hab => decide_eq_true (Nat.le_of_lt hab)))]
  cases hs : List.range size with
  | nil => rfl
  | cons a l =>
    show uniqueAux a l = _
    rw [uniqueAux_of_pairwise a l (hs ▸ List.pairwise_lt_range size)]

/-- Amended claim C8: the compactor is a no-op on an identity cluster
vector — the state the driver restores after every contraction — so in that
situation (and only then, in general) applying it twice with no sweep in
between produces the same `k`, `C` and `L` as applying it once.  For
arbitrary states a second application is not a no-op (see the
counterexample). -/
theorem claim_C8_amended (graphN size : ℕ) (C L : List ℕ)
    (hsz : size ≤ C.length) (hszN : size ≤ graphN)
    (hid : ∀ i, i < size → C.getD i 0 = i)
    (hL : ∀ x ∈ L, x < size) :
    renumber_clusters graphN C size L = (size, C, L) := by
  have hsurv := survivors_of_identity size C hsz hid
  have hinv : ∀ i, i < size →
      (renumberMap graphN size C).getD i (-1) = (i : ℤ) := by
    intro i hi
    have hU : (List.range size).getD i 0 = i := by
      rw [List.getD_eq_getElem _ 0 (by simpa using hi), List.getElem_range]
    rw [renumberMap, hsurv]
    have hsc := scatter_getD (List.range size) (List.replicate graphN (-1))
      (List.pairwise_lt_range size).nodup
      (by
        intro x hx
        rw [List.length_replicate]
        rw [List.mem_range] at hx
        omega)
      i (by simpa using hi)
    rw [hU] at hsc
    exact hsc
  have hC : renumberedC graphN size C = C := by
    apply List.ext_getElem
    · simp [renumberedC]
    · intro n h1 h2
      simp only [renumberedC, List.getElem_map, List.getElem_range]
      by_cases hn : n < size
      · rw [if_pos hn, hid n hn, hinv n hn]
        have h3 := hid n hn
        rw [List.getD_eq_getElem C 0 h2] at h3
        simpa using h3.symm
      · rw [if_neg hn, List.getD_eq_getElem C 0 h2]
  show ((survivors size C).length, renumberedC graphN size C,
    L.map (fun x => (renumberedC graphN size C).getD x 0)) = _
  rw [hsurv, hC, List.length_range]
  have hmap : L.map (fun x => C.getD x 0) = L :=
    map_getD_self L _ (fun x hx => hid x (hL x hx))
  rw [hmap]

/-- Witness for the amended C8: a concrete identity cluster vector, for
which one application (hence also a second one) changes nothing. -/
theorem claim_C8_amended_witness :
    ((3 : ℕ) ≤ ([0,1,2] : List ℕ).length ∧ (3 : ℕ) ≤ 5 ∧
      (∀ i, i < 3 → ([0,1,2] : List ℕ).getD i 0 = i) ∧
      (∀ x ∈ ([0,0,2] : List ℕ), x < 3)) ∧
    renumber_clusters 5 [0,1,2] 3 [0,0,2] = (3, [0,1,2], [0,0,2]) :=
  ⟨⟨by decide, by decide, by decide, by decide⟩,
    claim_C8_amended 5 3 [0,1,2] [0,0,2] (by decide) (by decide) (by decide)
      (by decide)⟩

/-- Counterexample to C8 as stated: starting from the (sweep-reachable)
state `C = [3,3,1,2]`, `L = [0,1,2,3]` with 4 current vertices, a second
application of the compactor (on the logically resized cluster vector, as
the source would run it) changes the label vector again — and also returns a
different cluster count — so the second application is not a no-op. -/
theorem claim_C8_cex :
    (renumber_clusters 4 (renumber_clusters 4 [3,3,1,2] 4 [0,1,2,3]).2.1
        (renumber_clusters 4 [3,3,1,2] 4 [0,1,2,3]).1
        (renumber_clusters 4 [3,3,1,2] 4 [0,1,2,3]).2.2).2.2 ≠
      (renumber_clusters 4 [3,3,1,2] 4 [0,1,2,3]).2.2 ∧
    (renumber_clusters 4 (renumber_clusters 4 [3,3,1,2] 4 [0,1,2,3]).2.1
        (renumber_clusters 4 [3,3,1,2] 4 [0,1,2,3]).1
        (renumber_clusters 4 [3,3,1,2] 4 [0,1,2,3]).2.2).1 ≠
      (renumber_clusters 4 [3,3,1,2] 4 [0,1,2,3]).1 := by
  with_unfolding_all decide

/-! ## Claim C7: the super-vertex contraction -/

theorem off_zero_le (G : CSR) (nn : ℕ)
    (hm : ∀ v, v < nn → off G v ≤ off G (v + 1)) :
    ∀ b, b ≤ nn → off G 0 ≤ off G b := by
  intro b
  induction b with
  | zero => intro _; exact le_rfl
  | succ k ih =>
    intro h
    exact le_trans (ih (by omega)) (hm k (by omega))

theorem srcs_sum (G : CSR) (nn : ℕ)
    (hm : ∀ v, v < nn → off G v ≤ off G (v + 1)) :
    ((List.range nn).map (fun v => off G (v + 1) - off G v)).sum =
      off G nn - off G 0 := by
  induction nn with
  | zero => simp
  | succ k ih =>
    rw [List.range_succ, List.map_append, List.sum_append]
    rw [ih (fun v hv => hm v (by omega))]
    have h1 : off G 0 ≤ off G k :=
      off_zero_le G k (fun v hv => hm v (by omega)) k le_rfl
    have h2 : off G k ≤ off G (k + 1) := hm k (by omega)
    simp
    omega

theorem length_get_source_indices (G : CSR) (hv : Valid G) :
    (get_source_indices G).length = G.m := by
  obtain ⟨h1, h2, h3, h4, h5, h6, h7⟩ := hv
  rw [get_source_indices, List.length_flatMap]
  have he : (List.length ∘ fun v => List.replicate (off G (v + 1) - off G v) v) =
      fun v => off G (v + 1) - off G v := by
    funext v
    simp
  rw [he, srcs_sum G G.n h6, h4, h5]
  omega

theorem rbkAux_sum (cur : ℕ × ℕ × ℚ) (l : List (ℕ × ℕ × ℚ)) :
    ((rbkAux cur l).map (fun t => t.2.2)).sum =
      cur.2.2 + (l.map (fun t => t.2.2)).sum := by
  induction l generalizing cur with
  | nil => simp [rbkAux]
  | cons y rest ih =>
    rw [rbkAux]
    by_cases h : cur.1 = y.1 ∧ cur.2.1 = y.2.1
    · rw [if_pos h, ih]
      simp
      ring
    · rw [if_neg h]
      simp [ih]

theorem reduceByKey_sum (l : List (ℕ × ℕ × ℚ)) :
    ((reduceByKey l).map (fun t => t.2.2)).sum =
      (l.map (fun t => t.2.2)).sum := by
  cases l with
  | nil => rfl
  | cons x rest =>
    show ((rbkAux x rest).map _).sum = _
    rw [rbkAux_sum]
    simp

theorem rbkAux_length (cur : ℕ × ℕ × ℚ) (l : List (ℕ × ℕ × ℚ)) :
    (rbkAux cur l).length ≤ l.length + 1 := by
  induction l generalizing cur with
  | nil => simp [rbkAux]
  | cons y rest ih =>
    rw [rbkAux]
    by_cases h : cur.1 = y.1 ∧ cur.2.1 = y.2.1
    · rw [if_pos h]
      exact le_trans (ih _) (by simp)
    · rw [if_neg h]
      simpa using ih y

theorem reduceByKey_length (l : List (ℕ × ℕ × ℚ)) :
    (reduceByKey l).length ≤ l.length := by
  cases l with
  | nil => simp [reduceByKey]
  | cons x rest =>
    show (rbkAux x rest).length ≤ _
    simpa using rbkAux_length x rest

theorem cooEdges_weights (G : CSR) (C : List ℕ) (hv : Valid G) :
    (cooEdges G C).map (fun t => t.2.2) = G.weights.take G.m := by
  obtain ⟨h1, h2, h3, h4, h5, h6, h7⟩ := hv
  have hA : ((get_source_indices G).map (fun s => C.getD s 0)).length = G.m := by
    rw [List.length_map, length_get_source_indices G ⟨h1, h2, h3, h4, h5, h6, h7⟩]
  have hB : ((G.indices.take G.m).map (fun d => C.getD d 0)).length = G.m := by
    rw [List.length_map, List.length_take, h2, min_self]
  have hW : (G.weights.take G.m).length = G.m := by
    rw [List.length_take, h3, min_self]
  have hsnd : (fun t : ℕ × ℕ × ℚ => t.2.2) =
      (fun p : ℕ × ℚ => p.2) ∘ (fun t : ℕ × ℕ × ℚ => t.2) := rfl
  rw [cooEdges, hsnd, ← List.map_map]
  rw [List.map_snd_zip _ _ (by rw [List.length_zip, hB, hW, hA]; simp)]
  rw [List.map_snd_zip _ _ (by rw [hB, hW])]

theorem cooEdges_length (G : CSR) (C : List ℕ) (hv : Valid G) :
    (cooEdges G C).length = G.m := by
  have := cooEdges_weights G C hv
  have h2 := congrArg List.length this
  rw [List.length_map, List.length_take, hv.2.2.1, min_self] at h2
  exact h2

/-- Claim C7: contraction preserves the total edge weight (self-loops
included), produces exactly `newN` vertices, and does not increase the edge
count. -/
theorem claim_C7 (G : CSR) (newN : ℕ) (C : List ℕ) (hv : Valid G) :
    totalWeight (generate_superverticies_graph G newN C) = totalWeight G ∧
    (generate_superverticies_graph G newN C).n = newN ∧
    (generate_superverticies_graph G newN C).m ≤ G.m := by
  have hperm : ((((cooEdges G C).mergeSort
      (fun a b => decide (a.2.1 ≤ b.2.1))).mergeSort
      (fun a b => decide (a.1 ≤ b.1)))).Perm (cooEdges G C) :=
    (List.mergeSort_perm _ _).trans (List.mergeSort_perm _ _)
  refine ⟨?_, rfl, ?_⟩
  · show ((generate_superverticies_graph G newN C).weights.take
      (generate_superverticies_graph G newN C).m).sum = _
    have hlw : (generate_superverticies_graph G newN C).weights =
        (contractedEdges G C).map (fun t => t.2.2) := rfl
    have hlm : (generate_superverticies_graph G newN C).m =
        (contractedEdges G C).length := rfl
    rw [hlw, hlm, ← List.length_map (contractedEdges G C) (fun t => t.2.2),
      List.take_length]
    rw [contractedEdges, reduceByKey_sum]
    rw [(hperm.map (fun t => t.2.2)).sum_eq]
    rw [cooEdges_weights G C hv]
    rfl
  · show (contractedEdges G C).length ≤ G.m
    calc (contractedEdges G C).length
        ≤ (((cooEdges G C).mergeSort
            (fun a b => decide (a.2.1 ≤ b.2.1))).mergeSort
            (fun a b => decide (a.1 ≤ b.1))).length := reduceByKey_length _
      _ = (cooEdges G C).length := hperm.length_eq
      _ = G.m := cooEdges_length G C hv

/-- Witness for C7: contracting the triangle `K3` (unit weights) under the
all-in-one clustering. -/
theorem claim_C7_witness :
    Valid ⟨[0,2,4,6], [1,2,0,2,0,1], [1,1,1,1,1,1], 3, 6⟩ ∧
    (totalWeight (generate_superverticies_graph
        ⟨[0,2,4,6], [1,2,0,2,0,1], [1,1,1,1,1,1], 3, 6⟩ 1 [0,0,0]) =
      totalWeight ⟨[0,2,4,6], [1,2,0,2,0,1], [1,1,1,1,1,1], 3, 6⟩ ∧
    (generate_superverticies_graph
        ⟨[0,2,4,6], [1,2,0,2,0,1], [1,1,1,1,1,1], 3, 6⟩ 1 [0,0,0]).n = 1 ∧
    (generate_superverticies_graph
        ⟨[0,2,4,6], [1,2,0,2,0,1], [1,1,1,1,1,1], 3, 6⟩ 1 [0,0,0]).m ≤ 6) :=
  ⟨by with_unfolding_all decide,
    claim_C7 ⟨[0,2,4,6], [1,2,0,2,0,1], [1,1,1,1,1,1], 3, 6⟩ 1 [0,0,0]
      (by with_unfolding_all decide)⟩

/-! ## The sweep kernel: lane folds and the warp reduction -/

theorem laneStep_fst_ge (m2 : ℚ) (G : CSR) (C : List ℕ) (vw cw : List ℚ)
    (v : ℕ) (acc : ℚ × ℤ) (loc : ℕ) :
    acc.1 ≤ (laneStep m2 G C vw cw v acc loc).1 := by
  rw [laneStep]
  split_ifs with h1 h2 h3
  · exact le_of_lt h2
  · exact le_rfl
  · exact le_of_lt h3
  · exact le_rfl

theorem laneFold_fst_ge (m2 : ℚ) (G : CSR) (C : List ℕ) (vw cw : List ℚ)
    (v : ℕ) (l : List ℕ) (init : ℚ × ℤ) :
    init.1 ≤ (l.foldl (laneStep m2 G C vw cw v) init).1 := by
  induction l generalizing init with
  | nil => exact le_rfl
  | cons y rest ih =>
    rw [List.foldl_cons]
    exact le_trans (laneStep_fst_ge m2 G C vw cw v init y) (ih _)

theorem laneFold_ge_dlt (m2 : ℚ) (G : CSR) (C : List ℕ) (vw cw : List ℚ)
    (v : ℕ) (l : List ℕ) (init : ℚ × ℤ) (loc : ℕ) (hmem : loc ∈ l)
    (hc : C.getD (ind G loc) 0 ≠ C.getD v 0) :
    dlt m2 G C vw cw v loc ≤ (l.foldl (laneStep m2 G C vw cw v) init).1 := by
  induction l generalizing init with
  | nil => simp at hmem
  | cons y rest ih =>
    rw [List.foldl_cons]
    rcases List.mem_cons.mp hmem with rfl | hmem2
    · refine le_trans ?_ (laneFold_fst_ge m2 G C vw cw v rest _)
      rw [laneStep, if_pos hc]
      split_ifs with h2
      · exact le_rfl
      · exact le_of_not_lt h2
    · exact ih _ hmem2

theorem laneFold_nonpos (m2 : ℚ) (G : CSR) (C : List ℕ) (vw cw : List ℚ)
    (v : ℕ) (l : List ℕ) (init : ℚ × ℤ)
    (hcand : ∀ loc ∈ l, C.getD (ind G loc) 0 ≠ C.getD v 0 →
      dlt m2 G C vw cw v loc ≤ 0)
    (hinit : init.1 ≤ 0) :
    (l.foldl (laneStep m2 G C vw cw v) init).1 ≤ 0 := by
  induction l generalizing init with
  | nil => exact hinit
  | cons y rest ih =>
    rw [List.foldl_cons]
    refine ih _ (fun loc hl hc => hcand loc (List.mem_cons_of_mem _ hl) hc) ?_
    rw [laneStep]
    split_ifs with h1 h2 h3
    · exact hcand y (List.mem_cons_self _ _) h1
    · exact hinit
    · exact le_rfl
    · exact hinit

theorem laneFold_pos_prov (m2 : ℚ) (G : CSR) (C : List ℕ) (vw cw : List ℚ)
    (v : ℕ) (l : List ℕ) (init : ℚ × ℤ)
    (h : 0 < (l.foldl (laneStep m2 G C vw cw v) init).1) :
    (∃ loc ∈ l, C.getD (ind G loc) 0 ≠ C.getD v 0 ∧
      l.foldl (laneStep m2 G C vw cw v) init =
        (dlt m2 G C vw cw v loc, (loc : ℤ))) ∨
    l.foldl (laneStep m2 G C vw cw v) init = init := by
  induction l generalizing init with
  | nil => exact Or.inr rfl
  | cons y rest ih =>
    rw [List.foldl_cons] at h ⊢
    rcases ih _ h with ⟨loc, hl, hc, he⟩ | he
    · exact Or.inl ⟨loc, List.mem_cons_of_mem _ hl, hc, he⟩
    · rw [he] at h ⊢
      rw [laneStep] at h ⊢
      split_ifs at h ⊢ with h1 h2 h3
      · exact Or.inl ⟨y, List.mem_cons_self _ _, h1, rfl⟩
      · exact Or.inr rfl
      · simp at h
      · exact Or.inr rfl

theorem mem_laneLocs_self (start dend loc : ℕ) (h1 : start ≤ loc)
    (h2 : loc < dend) :
    loc ∈ laneLocs start dend ((loc - start) % 32) := by
  rw [laneLocs, List.mem_range']
  have hmd := Nat.mod_add_div (loc - start) 32
  refine ⟨(loc - start) / 32, ?_, by omega⟩
  have h32 : ((loc - start) / 32 + 1) * 32 ≤
      dend - (start + (loc - start) % 32) + 31 := by omega
  have := (Nat.le_div_iff_mul_le (by norm_num : (0:ℕ) < 32)).mpr h32
  omega

theorem laneLocs_subset (start dend t loc : ℕ)
    (h : loc ∈ laneLocs start dend t) : start ≤ loc ∧ loc < dend := by
  rw [laneLocs, List.mem_range'] at h
  obtain ⟨i, hi, he⟩ := h
  have := (Nat.le_div_iff_mul_le (show (0:ℕ) < 32 by norm_num)).mp
    (by omega : i + 1 ≤ (dend - (start + t) + 31) / 32)
  omega

theorem redStep_mem (s : ℕ) (l : ℕ → ℚ × ℤ) (t : ℕ) :
    redStep s l t = l t ∨ redStep s l t = l (t + s) := by
  rw [redStep]
  split_ifs with h
  · exact Or.inr rfl
  · exact Or.inl rfl

theorem redStep_ge (s : ℕ) (l : ℕ → ℚ × ℤ) (t : ℕ) (ht : t < s) :
    (l t).1 ≤ (redStep s l t).1 ∧ (l (t + s)).1 ≤ (redStep s l t).1 := by
  rw [redStep]
  split_ifs with h
  · exact ⟨le_of_lt h.2, le_rfl⟩
  · refine ⟨le_rfl, ?_⟩
    by_contra hc
    exact h ⟨ht, lt_of_not_ge hc⟩

theorem redStep_dom (s : ℕ) (l : ℕ → ℚ × ℤ) (t : ℕ) (hs : 0 < s)
    (ht : t < 2 * s) :
    t % s < s ∧ (l t).1 ≤ (redStep s l (t % s)).1 := by
  have hmod : t % s < s := Nat.mod_lt t hs
  refine ⟨hmod, ?_⟩
  rcases Nat.lt_or_ge t s with h | h
  · rw [Nat.mod_eq_of_lt h]
    exact (redStep_ge s l t h).1
  · have hts : t % s = t - s := by
      rw [Nat.mod_eq_sub_mod h, Nat.mod_eq_of_lt (by omega)]
    have h2 := (redStep_ge s l (t - s) (by omega)).2
    rw [show t - s + s = t by omega] at h2
    rw [hts]
    exact h2

theorem warpReduce_ge (l : ℕ → ℚ × ℤ) (t : ℕ) (ht : t < 32) :
    (l t).1 ≤ (warpReduce l).1 := by
  have h16 := redStep_dom 16 l t (by norm_num) (by omega)
  have h8 := redStep_dom 8 (redStep 16 l) (t % 16) (by norm_num)
    (by omega)
  have h4 := redStep_dom 4 (redStep 8 (redStep 16 l)) (t % 16 % 8)
    (by norm_num) (by omega)
  have h2 := redStep_dom 2 (redStep 4 (redStep 8 (redStep 16 l)))
    (t % 16 % 8 % 4) (by norm_num) (by omega)
  have h1 := redStep_dom 1 (redStep 2 (redStep 4 (redStep 8 (redStep 16 l))))
    (t % 16 % 8 % 4 % 2) (by norm_num) (by omega)
  rw [Nat.mod_one] at h1
  rw [warpReduce]
  exact le_trans h16.2 (le_trans h8.2 (le_trans h4.2 (le_trans h2.2 h1.2)))

theorem redStep_mem_lt (s : ℕ) (l : ℕ → ℚ × ℤ) (t b : ℕ) (ht : t < b) :
    ∃ u, u < b + s ∧ redStep s l t = l u := by
  rcases redStep_mem s l t with h | h
  · exact ⟨t, by omega, h⟩
  · exact ⟨t + s, by omega, h⟩

theorem warpReduce_mem (l : ℕ → ℚ × ℤ) : ∃ t, t < 32 ∧ warpReduce l = l t := by
  obtain ⟨u1, hu1, he1⟩ := redStep_mem_lt 1
    (redStep 2 (redStep 4 (redStep 8 (redStep 16 l)))) 0 1 (by norm_num)
  obtain ⟨u2, hu2, he2⟩ := redStep_mem_lt 2
    (redStep 4 (redStep 8 (redStep 16 l))) u1 2 hu1
  obtain ⟨u3, hu3, he3⟩ := redStep_mem_lt 4 (redStep 8 (redStep 16 l)) u2 4 hu2
  obtain ⟨u4, hu4, he4⟩ := redStep_mem_lt 8 (redStep 16 l) u3 8 hu3
  obtain ⟨u5, hu5, he5⟩ := redStep_mem_lt 16 l u4 16 hu4
  refine ⟨u5, hu5, ?_⟩
  rw [warpReduce, he1, he2, he3, he4, he5]

theorem bestMove_pos (m2 : ℚ) (G : CSR) (C : List ℕ) (vw cw : List ℚ)
    (v : ℕ) (h : 0 < (bestMove m2 G C vw cw v).1) :
    ∃ loc, IsCand G C v loc ∧
      bestMove m2 G C vw cw v = (dlt m2 G C vw cw v loc, (loc : ℤ)) ∧
      (∀ loc', IsCand G C v loc' →
        dlt m2 G C vw cw v loc' ≤ dlt m2 G C vw cw v loc) := by
  obtain ⟨t, ht, he⟩ := warpReduce_mem (laneEntry m2 G C vw cw v)
  rw [bestMove] at h ⊢
  rw [he] at h
  rcases laneFold_pos_prov m2 G C vw cw v _ _ h with ⟨loc, hl, hc, hfold⟩ | hinit
  · have hfold2 : laneEntry m2 G C vw cw v t =
        (dlt m2 G C vw cw v loc, (loc : ℤ)) := hfold
    have hrange := laneLocs_subset _ _ _ _ hl
    refine ⟨loc, ⟨hrange.1, hrange.2, hc⟩, ?_, ?_⟩
    · rw [he]
      exact hfold2
    · intro loc' hcand
      have hl' := mem_laneLocs_self (off G v) (off G (v + 1)) loc'
        hcand.1 hcand.2.1
      have hle1 : dlt m2 G C vw cw v loc' ≤
          (laneEntry m2 G C vw cw v ((loc' - off G v) % 32)).1 :=
        laneFold_ge_dlt m2 G C vw cw v _ _ loc' hl' hcand.2.2
      have hle2 := warpReduce_ge (laneEntry m2 G C vw cw v)
        ((loc' - off G v) % 32) (Nat.mod_lt _ (by norm_num))
      have hfst : (warpReduce (laneEntry m2 G C vw cw v)).1 =
          dlt m2 G C vw cw v loc := by
        rw [he, hfold2]
      rw [← hfst]
      exact le_trans hle1 hle2
  · have hinit2 : laneEntry m2 G C vw cw v t = (-1, -1) := hinit
    rw [hinit2] at h
    norm_num at h

theorem bestMove_nonpos (m2 : ℚ) (G : CSR) (C : List ℕ) (vw cw : List ℚ)
    (v : ℕ)
    (hnp : ∀ loc, IsCand G C v loc → dlt m2 G C vw cw v loc ≤ 0) :
    (bestMove m2 G C vw cw v).1 ≤ 0 := by
  obtain ⟨t, ht, he⟩ := warpReduce_mem (laneEntry m2 G C vw cw v)
  rw [bestMove, he]
  apply laneFold_nonpos
  · intro loc hl hc
    have hrange := laneLocs_subset _ _ _ _ hl
    exact hnp loc ⟨hrange.1, hrange.2, hc⟩
  · norm_num

theorem bestMove_pos_of_cand (m2 : ℚ) (G : CSR) (C : List ℕ) (vw cw : List ℚ)
    (v : ℕ) (h : ∃ loc, IsCand G C v loc ∧ 0 < dlt m2 G C vw cw v loc) :
    0 < (bestMove m2 G C vw cw v).1 := by
  obtain ⟨loc, hcand, hdlt⟩ := h
  have hl := mem_laneLocs_self (off G v) (off G (v + 1)) loc hcand.1 hcand.2.1
  have hle1 : dlt m2 G C vw cw v loc ≤
      (laneEntry m2 G C vw cw v ((loc - off G v) % 32)).1 :=
    laneFold_ge_dlt m2 G C vw cw v _ _ loc hl hcand.2.2
  have hle2 := warpReduce_ge (laneEntry m2 G C vw cw v)
    ((loc - off G v) % 32) (Nat.mod_lt _ (by norm_num))
  exact lt_of_lt_of_le hdlt (le_trans hle1 hle2)

theorem processVertex_stay (m2 : ℚ) (G : CSR) (C : List ℕ) (vw cw : List ℚ)
    (v : ℕ)
    (hnp : ∀ loc, IsCand G C v loc → dlt m2 G C vw cw v loc ≤ 0) :
    processVertex m2 G vw (C, cw) v = (C, cw) := by
  rw [processVertex]
  rw [if_neg]
  simp only [not_lt]
  exact bestMove_nonpos m2 G C vw cw v hnp

theorem processVertex_move (m2 : ℚ) (G : CSR) (C : List ℕ) (vw cw : List ℚ)
    (v : ℕ) (h : ∃ loc, IsCand G C v loc ∧ 0 < dlt m2 G C vw cw v loc) :
    ∃ loc, IsCand G C v loc ∧ 0 < dlt m2 G C vw cw v loc ∧
      (∀ loc', IsCand G C v loc' →
        dlt m2 G C vw cw v loc' ≤ dlt m2 G C vw cw v loc) ∧
      processVertex m2 G vw (C, cw) v =
        (C.set v (C.getD (ind G loc) 0),
         (cw.set (C.getD v 0) (cw.getD (C.getD v 0) 0 - vw.getD v 0)).set
           (C.getD (ind G loc) 0)
           (cw.getD (C.getD (ind G loc) 0) 0 + vw.getD v 0)) := by
  have hpos := bestMove_pos_of_cand m2 G C vw cw v h
  obtain ⟨loc, hcand, heq, hmax⟩ := bestMove_pos m2 G C vw cw v hpos
  have hdpos : 0 < dlt m2 G C vw cw v loc := by
    have := congrArg Prod.fst heq
    simp only at this
    rw [← this]
    exact hpos
  refine ⟨loc, hcand, hdpos, hmax, ?_⟩
  rw [processVertex]
  simp only
  rw [if_pos hpos, heq]
  simp only [Int.toNat_natCast]
  rw [getD_set_ne cw _ _ (Ne.symm hcand.2.2)]

/-- Amended claim C4: in every sweep, a vertex `v` keeps its cluster when no
candidate has positive gain; and when some candidate has positive gain, `v`
is moved to the cluster of a candidate edge position whose gain is positive
and maximal among all candidates, with exactly the updates
`Σ[old] −= k_v`, `C[v] ← new`, `Σ[new] += k_v`.  (The original claim's
earliest-position tie-break does not hold: the warp tree reduction can pick
a later position, see the counterexample.) -/
theorem claim_C4_amended (m2 : ℚ) (G : CSR) (C : List ℕ) (vw cw : List ℚ)
    (v : ℕ) :
    ((∀ loc, IsCand G C v loc → dlt m2 G C vw cw v loc ≤ 0) →
      processVertex m2 G vw (C, cw) v = (C, cw)) ∧
    ((∃ loc, IsCand G C v loc ∧ 0 < dlt m2 G C vw cw v loc) →
      ∃ loc, IsCand G C v loc ∧ 0 < dlt m2 G C vw cw v loc ∧
        (∀ loc', IsCand G C v loc' →
          dlt m2 G C vw cw v loc' ≤ dlt m2 G C vw cw v loc) ∧
        processVertex m2 G vw (C, cw) v =
          (C.set v (C.getD (ind G loc) 0),
           (cw.set (C.getD v 0) (cw.getD (C.getD v 0) 0 - vw.getD v 0)).set
             (C.getD (ind G loc) 0)
             (cw.getD (C.getD (ind G loc) 0) 0 + vw.getD v 0))) :=
  ⟨processVertex_stay m2 G C vw cw v, processVertex_move m2 G C vw cw v⟩

/-- Witness for the amended C4 on the 7-vertex weighted star: position 3 is
a positive-gain candidate for vertex 0, so the move branch of the amended
claim applies there. -/
theorem claim_C4_amended_witness :
    (∃ loc, IsCand ⟨[0,6,7,8,9,10,11,12], [1,2,3,4,5,6,0,0,0,0,0,0],
        [1,1,1,5,1,5,1,1,1,5,1,5], 7, 12⟩ [0,0,0,0,1,0,2] 0 loc ∧
      0 < dlt 28 ⟨[0,6,7,8,9,10,11,12], [1,2,3,4,5,6,0,0,0,0,0,0],
        [1,1,1,5,1,5,1,1,1,5,1,5], 7, 12⟩ [0,0,0,0,1,0,2]
        [14,1,1,1,5,1,5] [18,5,5,0,0,0,0] 0 loc) ∧
    (∃ loc, IsCand ⟨[0,6,7,8,9,10,11,12], [1,2,3,4,5,6,0,0,0,0,0,0],
        [1,1,1,5,1,5,1,1,1,5,1,5], 7, 12⟩ [0,0,0,0,1,0,2] 0 loc ∧
      0 < dlt 28 ⟨[0,6,7,8,9,10,11,12], [1,2,3,4,5,6,0,0,0,0,0,0],
        [1,1,1,5,1,5,1,1,1,5,1,5], 7, 12⟩ [0,0,0,0,1,0,2]
        [14,1,1,1,5,1,5] [18,5,5,0,0,0,0] 0 loc ∧
      (∀ loc', IsCand ⟨[0,6,7,8,9,10,11,12], [1,2,3,4,5,6,0,0,0,0,0,0],
          [1,1,1,5,1,5,1,1,1,5,1,5], 7, 12⟩ [0,0,0,0,1,0,2] 0 loc' →
        dlt 28 ⟨[0,6,7,8,9,10,11,12], [1,2,3,4,5,6,0,0,0,0,0,0],
          [1,1,1,5,1,5,1,1,1,5,1,5], 7, 12⟩ [0,0,0,0,1,0,2]
          [14,1,1,1,5,1,5] [18,5,5,0,0,0,0] 0 loc' ≤
        dlt 28 ⟨[0,6,7,8,9,10,11,12], [1,2,3,4,5,6,0,0,0,0,0,0],
          [1,1,1,5,1,5,1,1,1,5,1,5], 7, 12⟩ [0,0,0,0,1,0,2]
          [14,1,1,1,5,1,5] [18,5,5,0,0,0,0] 0 loc) ∧
      processVertex 28 ⟨[0,6,7,8,9,10,11,12], [1,2,3,4,5,6,0,0,0,0,0,0],
          [1,1,1,5,1,5,1,1,1,5,1,5], 7, 12⟩ [14,1,1,1,5,1,5]
          ([0,0,0,0,1,0,2], [18,5,5,0,0,0,0]) 0 =
        (([0,0,0,0,1,0,2] : List ℕ).set 0
          (([0,0,0,0,1,0,2] : List ℕ).getD (ind ⟨[0,6,7,8,9,10,11,12],
            [1,2,3,4,5,6,0,0,0,0,0,0], [1,1,1,5,1,5,1,1,1,5,1,5], 7, 12⟩
            loc) 0),
         (([18,5,5,0,0,0,0] : List ℚ).set
            (([0,0,0,0,1,0,2] : List ℕ).getD 0 0)
            (([18,5,5,0,0,0,0] : List ℚ).getD
              (([0,0,0,0,1,0,2] : List ℕ).getD 0 0) 0 -
             ([14,1,1,1,5,1,5] : List ℚ).getD 0 0)).set
           (([0,0,0,0,1,0,2] : List ℕ).getD (ind ⟨[0,6,7,8,9,10,11,12],
             [1,2,3,4,5,6,0,0,0,0,0,0], [1,1,1,5,1,5,1,1,1,5,1,5], 7, 12⟩
             loc) 0)
           (([18,5,5,0,0,0,0] : List ℚ).getD
             (([0,0,0,0,1,0,2] : List ℕ).getD (ind ⟨[0,6,7,8,9,10,11,12],
               [1,2,3,4,5,6,0,0,0,0,0,0], [1,1,1,5,1,5,1,1,1,5,1,5], 7, 12⟩
               loc) 0) 0 +
            ([14,1,1,1,5,1,5] : List ℚ).getD 0 0))) :=
  have htrig : ∃ loc, IsCand ⟨[0,6,7,8,9,10,11,12], [1,2,3,4,5,6,0,0,0,0,0,0],
      [1,1,1,5,1,5,1,1,1,5,1,5], 7, 12⟩ [0,0,0,0,1,0,2] 0 loc ∧
      0 < dlt 28 ⟨[0,6,7,8,9,10,11,12], [1,2,3,4,5,6,0,0,0,0,0,0],
        [1,1,1,5,1,5,1,1,1,5,1,5], 7, 12⟩ [0,0,0,0,1,0,2]
        [14,1,1,1,5,1,5] [18,5,5,0,0,0,0] 0 loc :=
    ⟨3, by decide, by with_unfolding_all decide⟩
  ⟨htrig, (claim_C4_amended 28 _ [0,0,0,0,1,0,2] [14,1,1,1,5,1,5]
    [18,5,5,0,0,0,0] 0).2 htrig⟩

/-- Counterexample to C4 as stated: on the 7-vertex weighted star (vertex 0
adjacent to 1..6, weights 1,1,1,5,1,5, clusters `[0,0,0,0,1,0,2]`, consistent
vertex and cluster weights, `m2 = 28`), the candidates at edge positions 3
(cluster 1) and 5 (cluster 2) tie with gain `1/2 > 0`; the spec's rule picks
the earliest position 3 (cluster 1), but the kernel's warp reduction picks
position 5 and moves vertex 0 to cluster 2. -/
theorem claim_C4_cex :
    specBestLoc 28 ⟨[0,6,7,8,9,10,11,12], [1,2,3,4,5,6,0,0,0,0,0,0],
        [1,1,1,5,1,5,1,1,1,5,1,5], 7, 12⟩ [0,0,0,0,1,0,2]
        [14,1,1,1,5,1,5] [18,5,5,0,0,0,0] 0 = some 3 ∧
    ([0,0,0,0,1,0,2] : List ℕ).getD (ind ⟨[0,6,7,8,9,10,11,12],
      [1,2,3,4,5,6,0,0,0,0,0,0], [1,1,1,5,1,5,1,1,1,5,1,5], 7, 12⟩ 3) 0 = 1 ∧
    dlt 28 ⟨[0,6,7,8,9,10,11,12], [1,2,3,4,5,6,0,0,0,0,0,0],
      [1,1,1,5,1,5,1,1,1,5,1,5], 7, 12⟩ [0,0,0,0,1,0,2]
      [14,1,1,1,5,1,5] [18,5,5,0,0,0,0] 0 3 =
    dlt 28 ⟨[0,6,7,8,9,10,11,12], [1,2,3,4,5,6,0,0,0,0,0,0],
      [1,1,1,5,1,5,1,1,1,5,1,5], 7, 12⟩ [0,0,0,0,1,0,2]
      [14,1,1,1,5,1,5] [18,5,5,0,0,0,0] 0 5 ∧
    0 < dlt 28 ⟨[0,6,7,8,9,10,11,12], [1,2,3,4,5,6,0,0,0,0,0,0],
      [1,1,1,5,1,5,1,1,1,5,1,5], 7, 12⟩ [0,0,0,0,1,0,2]
      [14,1,1,1,5,1,5] [18,5,5,0,0,0,0] 0 3 ∧
    (processVertex 28 ⟨[0,6,7,8,9,10,11,12], [1,2,3,4,5,6,0,0,0,0,0,0],
        [1,1,1,5,1,5,1,1,1,5,1,5], 7, 12⟩ [14,1,1,1,5,1,5]
        ([0,0,0,0,1,0,2], [18,5,5,0,0,0,0]) 0).1.getD 0 0 = 2 := by
  with_unfolding_all decide

/-! ## Claim C10: the cluster-weight total is preserved by the sweep -/

theorem processVertex_sum_pres (m2 : ℚ) (G : CSR) (vw : List ℚ) (C : List ℕ)
    (cw : List ℚ) (v : ℕ) (hB : ∀ i, C.getD i 0 < cw.length) :
    (processVertex m2 G vw (C, cw) v).2.sum = cw.sum ∧
    (∀ i, (processVertex m2 G vw (C, cw) v).1.getD i 0 <
      (processVertex m2 G vw (C, cw) v).2.length) := by
  rw [processVertex]
  split_ifs with h
  · constructor
    · simp only
      rw [sum_set_rat _ _ _ (by rw [List.length_set]; exact hB _)]
      rw [sum_set_rat _ _ _ (hB _)]
      ring
    · intro i
      simp only
      rw [List.length_set, List.length_set]
      by_cases hiv : i = v
      · subst hiv
        by_cases hvlen : i < C.length
        · rw [getD_set_self _ _ _ _ hvlen]
          exact hB _
        · rw [List.set_eq_of_length_le (by omega)]
          exact hB i
      · rw [getD_set_ne _ _ _ (Ne.symm hiv)]
        exact hB i
  · exact ⟨rfl, fun i => hB i⟩

theorem sweepUpTo_invariant (m2 : ℚ) (G : CSR) (vw : List ℚ) (C : List ℕ)
    (cw : List ℚ) (hB : ∀ i, C.getD i 0 < cw.length) :
    ∀ t, (sweepUpTo m2 G vw C cw t).2.sum = cw.sum ∧
      (∀ i, (sweepUpTo m2 G vw C cw t).1.getD i 0 <
        (sweepUpTo m2 G vw C cw t).2.length) := by
  intro t
  induction t with
  | zero => exact ⟨rfl, hB⟩
  | succ k ih =>
    have hstep : sweepUpTo m2 G vw C cw (k + 1) =
        processVertex m2 G vw (sweepUpTo m2 G vw C cw k) k := by
      rw [sweepUpTo, sweepUpTo, List.range_succ, List.foldl_append,
        List.foldl_cons, List.foldl_nil]
    have h := processVertex_sum_pres m2 G vw (sweepUpTo m2 G vw C cw k).1
      (sweepUpTo m2 G vw C cw k).2 k ih.2
    rw [Prod.mk.eta] at h
    rw [hstep]
    exact ⟨h.1.trans ih.1, h.2⟩

/-- Claim C10: throughout a sweep the total of the cluster-weight array
equals the total of the vertex-weight array: they start equal (the driver
initialises `cluster_weights` as a copy of `vertex_weights`) and each
accepted move subtracts `k_v` from one cluster and adds it to another. -/
theorem claim_C10 (m2 : ℚ) (G : CSR) (vw : List ℚ) (C : List ℕ)
    (cw : List ℚ) (hB : ∀ i, i < C.length → C.getD i 0 < cw.length)
    (hpos : 0 < cw.length) (hsum : cw.sum = vw.sum) :
    (∀ t, t ≤ G.n → (sweepUpTo m2 G vw C cw t).2.sum = vw.sum) ∧
    (update_each_assignment_by_delta_modularity m2 G vw C cw).2.sum =
      vw.sum := by
  have hB2 : ∀ i, C.getD i 0 < cw.length := by
    intro i
    by_cases hi : i < C.length
    · exact hB i hi
    · rw [List.getD_eq_default _ _ (by omega)]
      exact hpos
  constructor
  · intro t _
    exact ((sweepUpTo_invariant m2 G vw C cw hB2 t).1).trans hsum
  · show (sweepUpTo m2 G vw C cw G.n).2.sum = vw.sum
    exact ((sweepUpTo_invariant m2 G vw C cw hB2 G.n).1).trans hsum

/-- Witness for C10 on the triangle `K3` with identity clustering and
`cluster_weights` initialised as a copy of the vertex weights. -/
theorem claim_C10_witness :
    ((∀ i, i < ([0,1,2] : List ℕ).length →
        ([0,1,2] : List ℕ).getD i 0 < ([2,2,2] : List ℚ).length) ∧
      0 < ([2,2,2] : List ℚ).length ∧
      ([2,2,2] : List ℚ).sum = ([2,2,2] : List ℚ).sum) ∧
    ((∀ t, t ≤ (3:ℕ) → (sweepUpTo 6 ⟨[0,2,4,6], [1,2,0,2,0,1],
        [1,1,1,1,1,1], 3, 6⟩ [2,2,2] [0,1,2] [2,2,2] t).2.sum =
        ([2,2,2] : List ℚ).sum) ∧
      (update_each_assignment_by_delta_modularity 6
        ⟨[0,2,4,6], [1,2,0,2,0,1], [1,1,1,1,1,1], 3, 6⟩ [2,2,2] [0,1,2]
        [2,2,2]).2.sum = ([2,2,2] : List ℚ).sum) :=
  ⟨⟨by decide, by decide, rfl⟩,
    claim_C10 6 ⟨[0,2,4,6], [1,2,0,2,0,1], [1,1,1,1,1,1], 3, 6⟩ [2,2,2]
      [0,1,2] [2,2,2] (by decide) (by decide) rfl⟩

/-! ## Claims C1 and C9: the driver -/

theorem innerLoop_succ (m2 : ℚ) (G : CSR) (vw : List ℚ) (fuel : ℕ)
    (curQ newQ : ℚ) (C : List ℕ) (cw : List ℚ) :
    innerLoop m2 G vw (fuel + 1) curQ newQ C cw =
      (if newQ > curQ + 1 / 10000 then
        innerLoop m2 G vw fuel newQ
          (modularity m2 G
            (update_each_assignment_by_delta_modularity m2 G vw C cw).1 vw
            (update_each_assignment_by_delta_modularity m2 G vw C cw).2)
          (update_each_assignment_by_delta_modularity m2 G vw C cw).1
          (update_each_assignment_by_delta_modularity m2 G vw C cw).2
      else (C, cw, newQ)) := rfl

theorem update_clustering_eq (fuel : ℕ) (m2 : ℚ) (G : CSR)
    (vw cw : List ℚ) (C : List ℕ) :
    update_clustering_by_delta_modularity fuel m2 G vw cw C =
      innerLoop m2 G vw fuel (modularity m2 G C vw cw - 1)
        (modularity m2 G C vw cw) C cw := rfl

theorem louvainLoop_succ (m2 : ℚ) (n0 iF fuel : ℕ) (G : CSR) (C L : List ℕ)
    (best : ℚ) (depth : ℕ) :
    louvainLoop m2 n0 iF (fuel + 1) G C L best depth =
      (if (List.range G.n).all (fun v =>
          (update_clustering_by_delta_modularity iF m2 G
            (compute_vertex_sums G) (compute_vertex_sums G) C).1.getD v 0 = v)
      then ⟨0, best, L, depth⟩
      else
        louvainLoop m2 n0 iF fuel
          (generate_superverticies_graph G
            (renumber_clusters n0
              (update_clustering_by_delta_modularity iF m2 G
                (compute_vertex_sums G) (compute_vertex_sums G) C).1
              (update_clustering_by_delta_modularity iF m2 G
                (compute_vertex_sums G) (compute_vertex_sums G) C).1.length
              L).1
            (renumber_clusters n0
              (update_clustering_by_delta_modularity iF m2 G
                (compute_vertex_sums G) (compute_vertex_sums G) C).1
              (update_clustering_by_delta_modularity iF m2 G
                (compute_vertex_sums G) (compute_vertex_sums G) C).1.length
              L).2.1)
          (List.range
            (renumber_clusters n0
              (update_clustering_by_delta_modularity iF m2 G
                (compute_vertex_sums G) (compute_vertex_sums G) C).1
              (update_clustering_by_delta_modularity iF m2 G
                (compute_vertex_sums G) (compute_vertex_sums G) C).1.length
              L).1)
          (renumber_clusters n0
            (update_clustering_by_delta_modularity iF m2 G
              (compute_vertex_sums G) (compute_vertex_sums G) C).1
            (update_clustering_by_delta_modularity iF m2 G
              (compute_vertex_sums G) (compute_vertex_sums G) C).1.length
            L).2.2
          (update_clustering_by_delta_modularity iF m2 G
            (compute_vertex_sums G) (compute_vertex_sums G) C).2.2
          (depth + 1)) := rfl

theorem louvain_eq (G : CSR) (oF iF : ℕ) :
    louvain G oF iF = louvainLoop ((G.weights.take G.m).sum) G.n iF oF G
      (List.range G.n) (List.range G.n) (-1) 0 := rfl

theorem louvainLoop_num_level (m2 : ℚ) (n0 iF : ℕ) :
    ∀ (fuel : ℕ) (G : CSR) (C L : List ℕ) (best : ℚ) (depth : ℕ),
      (louvainLoop m2 n0 iF fuel G C L best depth).num_level = 0 := by
  intro fuel
  induction fuel with
  | zero => intro G C L best depth; rfl
  | succ k ih =>
    intro G C L best depth
    rw [louvainLoop_succ]
    split
    · rfl
    · exact ih _ _ _ _ _

/-- Claim C1 (code bug): the source sets `*num_level = 0` before the
dendrogram loop and never writes it again, so the returned level count does
not equal the dendrogram depth.  On the two-vertex single-edge graph the run
performs one contraction (depth 1) yet returns `num_level = 0`; in general
`num_level = 0` is returned for every graph and fuel. -/
theorem claim_C1 :
    louvain ⟨[0,1,2], [1,0], [1,1], 2, 2⟩ 10 10 = ⟨0, 0, [0,0], 1⟩ ∧
    (louvain ⟨[0,1,2], [1,0], [1,1], 2, 2⟩ 10 10).num_level ≠
      (louvain ⟨[0,1,2], [1,0], [1,1], 2, 2⟩ 10 10).depth ∧
    (∀ (G : CSR) (oF iF : ℕ), (louvain G oF iF).num_level = 0) := by
  refine ⟨?_, ?_, ?_⟩
  · with_unfolding_all decide
  · with_unfolding_all decide
  · intro G oF iF
    rw [louvain_eq]
    exact louvainLoop_num_level _ _ _ _ _ _ _ _ _

/-- Counterexample to C9 as stated: on the one-vertex graph with a unit
self-loop, `louvain` does return `levels = 0` and `L = [0]`, but its
`best_modularity` is the untouched initial sentinel `-1`, not `0`: the loop
breaks out (no vertex moved) before `best_modularity = new_Q` is ever
executed. -/
theorem claim_C9_cex :
    louvain ⟨[0,1], [0], [1], 1, 1⟩ 10 10 = ⟨0, -1, [0], 0⟩ ∧
    (louvain ⟨[0,1], [0], [1], 1, 1⟩ 10 10).final_modularity ≠ 0 := by
  with_unfolding_all decide

/-- Amended claim C9: on a one-vertex input graph `louvain` returns
`levels = 0` and `L = [0]`, but `best_modularity = -1` (the sentinel initial
value of `best_modularity`, returned unchanged because the loop exits before
any assignment to it): proved for the one-vertex graph with a single
self-loop of arbitrary weight, and for the edgeless one-vertex graph. -/
theorem claim_C9_amended :
    (∀ w : ℚ, louvain ⟨[0,1], [0], [w], 1, 1⟩ 10 10 = ⟨0, -1, [0], 0⟩) ∧
    louvain ⟨[0,0], [], [], 1, 0⟩ 10 10 = ⟨0, -1, [0], 0⟩ := by
  constructor
  · intro w
    have hvw : compute_vertex_sums ⟨[0,1], [0], [w], 1, 1⟩ = [w] := by
      rw [compute_vertex_sums]
      rw [show (⟨[0,1], [0], [w], 1, 1⟩ : CSR).n = 1 from rfl]
      rw [show List.range 1 = [0] by decide, List.map_singleton]
      rw [vertexSum]
      rw [show off ⟨[0,1], [0], [w], 1, 1⟩ 0 = 0 from rfl,
        show off ⟨[0,1], [0], [w], 1, 1⟩ (0 + 1) = 1 from rfl]
      rw [← Finset.range_eq_Ico, Finset.sum_range_one]
      rfl
    have hmod : modularity w ⟨[0,1], [0], [w], 1, 1⟩ [0] [w] [w] = 0 := by
      rw [modularity]
      rw [show Finset.range (⟨[0,1], [0], [w], 1, 1⟩ : CSR).n =
        Finset.range 1 from rfl]
      rw [Finset.sum_range_one, Qterm]
      have hA : Avert ⟨[0,1], [0], [w], 1, 1⟩ [0] 0 = 0 := by
        rw [Avert]
        rw [show off ⟨[0,1], [0], [w], 1, 1⟩ 0 = 0 from rfl,
          show off ⟨[0,1], [0], [w], 1, 1⟩ (0 + 1) = 1 from rfl]
        rw [← Finset.range_eq_Ico, Finset.sum_range_one]
        rw [if_neg]
        intro hne
        exact hne rfl
      rw [hA]
      show -((0 - (w * (w - w)) / w) / w) = 0
      rw [sub_self]
      norm_num
    have hnc : ∀ loc, IsCand ⟨[0,1], [0], [w], 1, 1⟩ [0] 0 loc →
        dlt w ⟨[0,1], [0], [w], 1, 1⟩ [0] [w] [w] 0 loc ≤ 0 := by
      intro loc hc
      obtain ⟨ha, hb, hne⟩ := hc
      have ha2 : (0:ℕ) ≤ loc := ha
      have hb2 : loc < 1 := hb
      have hl0 : loc = 0 := by omega
      subst hl0
      exact absurd rfl hne
    have hsweep : update_each_assignment_by_delta_modularity w
        ⟨[0,1], [0], [w], 1, 1⟩ [w] [0] [w] = ([0], [w]) := by
      show (List.range 1).foldl (processVertex w ⟨[0,1], [0], [w], 1, 1⟩ [w])
        ([0], [w]) = ([0], [w])
      rw [show List.range 1 = [0] by decide, List.foldl_cons, List.foldl_nil]
      exact processVertex_stay w ⟨[0,1], [0], [w], 1, 1⟩ [0] [w] [w] 0 hnc
    have hinner : update_clustering_by_delta_modularity 10 w
        ⟨[0,1], [0], [w], 1, 1⟩ [w] [w] [0] = ([0], [w], 0) := by
      rw [update_clustering_eq, hmod]
      rw [show (10:ℕ) = 9 + 1 from rfl, innerLoop_succ]
      rw [if_pos (by norm_num)]
      rw [hsweep]
      dsimp only
      rw [hmod]
      rw [show (9:ℕ) = 8 + 1 from rfl, innerLoop_succ]
      rw [if_neg (by norm_num)]
    rw [louvain_eq]
    rw [show ((⟨[0,1], [0], [w], 1, 1⟩ : CSR).weights.take
      (⟨[0,1], [0], [w], 1, 1⟩ : CSR).m).sum = w from by simp]
    rw [show (⟨[0,1], [0], [w], 1, 1⟩ : CSR).n = 1 from rfl]
    rw [show List.range 1 = [0] by decide]
    rw [show (10:ℕ) = 9 + 1 from rfl, louvainLoop_succ]
    rw [show (⟨[0,1], [0], [w], 1, 1⟩ : CSR).n = 1 from rfl]
    rw [show List.range 1 = [0] by decide]
    rw [hvw, hinner]
    rw [if_pos (by simp)]
  · with_unfolding_all decide

/-! ## Claim C5: exact modularity is non-decreasing across sweeps -/

theorem off_mono (G : CSR) (hm : ∀ x, x < G.n → off G x ≤ off G (x + 1))
    (a b : ℕ) (hab : a ≤ b) (hb : b ≤ G.n) : off G a ≤ off G b := by
  induction b with
  | zero =>
    have : a = 0 := by omega
    subst this
    exact le_rfl
  | succ k ih =>
    rcases Nat.lt_or_ge a (k + 1) with h | h
    · exact le_trans (ih (by omega) (by omega)) (hm k (by omega))
    · have : a = k + 1 := by omega
      subst this
      exact le_rfl

theorem ind_lt_of_mem (G : CSR) (hv : Valid G) (v : ℕ) (hvn : v < G.n)
    (e : ℕ) (he : e ∈ Finset.Ico (off G v) (off G (v + 1))) :
    ind G e < G.n := by
  obtain ⟨h1, h2, h3, h4, h5, h6, h7⟩ := hv
  rw [Finset.mem_Ico] at he
  apply h7
  have : off G (v + 1) ≤ off G G.n := off_mono G h6 (v + 1) G.n (by omega) le_rfl
  omega

theorem adj_sum_ite (G : CSR) (hv : Valid G) (v : ℕ) (hvn : v < G.n)
    (P : ℕ → Prop) [DecidablePred P] :
    (∑ e in Finset.Ico (off G v) (off G (v + 1)),
      if P (ind G e) then wt G e else 0) =
    ∑ u in Finset.range G.n, if P u then Wmat G v u else 0 := by
  calc (∑ e in Finset.Ico (off G v) (off G (v + 1)),
        if P (ind G e) then wt G e else 0)
      = ∑ e in Finset.Ico (off G v) (off G (v + 1)),
          ∑ u in Finset.range G.n,
            if ind G e = u then (if P u then wt G e else 0) else 0 := by
        refine Finset.sum_congr rfl (fun e he => ?_)
        rw [Finset.sum_ite_eq]
        rw [if_pos (Finset.mem_range.mpr (ind_lt_of_mem G hv v hvn e he))]
    _ = ∑ u in Finset.range G.n,
          ∑ e in Finset.Ico (off G v) (off G (v + 1)),
            if ind G e = u then (if P u then wt G e else 0) else 0 :=
        Finset.sum_comm
    _ = ∑ u in Finset.range G.n, if P u then Wmat G v u else 0 := by
        refine Finset.sum_congr rfl (fun u _ => ?_)
        by_cases hp : P u
        · rw [if_pos hp, Wmat]
          refine Finset.sum_congr rfl (fun e _ => ?_)
          rw [if_pos hp]
        · rw [if_neg hp]
          refine Finset.sum_eq_zero (fun e _ => ?_)
          rw [if_neg hp, ite_self]

theorem vertexSum_eq_rowsum (G : CSR) (hv : Valid G) (v : ℕ)
    (hvn : v < G.n) :
    vertexSum G v = ∑ u in Finset.range G.n, Wmat G v u := by
  have h := adj_sum_ite G hv v hvn (fun _ => True)
  simp only [if_pos trivial] at h
  rw [vertexSum]
  rw [h]

theorem Avert_eq (G : CSR) (hv : Valid G) (C : List ℕ) (v : ℕ)
    (hvn : v < G.n) :
    Avert G C v = ∑ u in Finset.range G.n,
      if C.getD u 0 ≠ C.getD v 0 then Wmat G v u else 0 :=
  adj_sum_ite G hv v hvn (fun u => C.getD u 0 ≠ C.getD v 0)

theorem sIn_eq (G : CSR) (hv : Valid G) (C : List ℕ) (v c : ℕ)
    (hvn : v < G.n) :
    sIn G C v c = ∑ u in Finset.range G.n,
      if u ≠ v ∧ C.getD u 0 = c then Wmat G v u else 0 :=
  adj_sum_ite G hv v hvn (fun u => u ≠ v ∧ C.getD u 0 = c)

theorem Avert_set_self (G : CSR) (hv : Valid G) (C : List ℕ) (v newc : ℕ)
    (hvn : v < G.n) (hvC : v < C.length) :
    Avert G (C.set v newc) v =
      (∑ u in Finset.range G.n, if u ≠ v then Wmat G v u else 0) -
        sIn G C v newc := by
  rw [Avert_eq G hv _ v hvn, sIn_eq G hv C v newc hvn]
  simp only [getD_set_self C v newc 0 hvC]
  rw [← Finset.sum_sub_distrib]
  refine Finset.sum_congr rfl (fun u hu => ?_)
  by_cases huv : u = v
  · subst huv
    simp only [getD_set_self C u newc 0 hvC]
    simp
  · rw [getD_set_ne C newc 0 (Ne.symm huv)]
    by_cases hc : C.getD u 0 = newc
    · rw [hc]
      rw [if_neg (by simp : ¬(newc ≠ newc)), if_pos huv, if_pos ⟨huv, rfl⟩]
      ring
    · rw [if_pos hc, if_pos huv, if_neg (fun hh => hc hh.2), sub_zero]

theorem Avert_plain_self (G : CSR) (hv : Valid G) (C : List ℕ) (v : ℕ)
    (hvn : v < G.n) :
    Avert G C v =
      (∑ u in Finset.range G.n, if u ≠ v then Wmat G v u else 0) -
        sIn G C v (C.getD v 0) := by
  rw [Avert_eq G hv C v hvn, sIn_eq G hv C v _ hvn]
  rw [← Finset.sum_sub_distrib]
  refine Finset.sum_congr rfl (fun u hu => ?_)
  by_cases huv : u = v
  · subst huv
    simp
  · by_cases hc : C.getD u 0 = C.getD v 0
    · rw [hc]
      rw [if_neg (by simp : ¬(C.getD v 0 ≠ C.getD v 0)), if_pos huv,
        if_pos ⟨huv, rfl⟩]
      ring
    · rw [if_pos hc, if_pos huv, if_neg (fun hh => hc hh.2), sub_zero]

theorem Avert_set_other (G : CSR) (hv : Valid G) (C : List ℕ)
    (v newc x : ℕ) (hvn : v < G.n) (hvC : v < C.length) (hx : x ≠ v)
    (hxn : x < G.n) :
    Avert G (C.set v newc) x = Avert G C x +
      ((if newc ≠ C.getD x 0 then Wmat G x v else 0) -
       (if C.getD v 0 ≠ C.getD x 0 then Wmat G x v else 0)) := by
  rw [Avert_eq G hv _ x hxn, Avert_eq G hv C x hxn]
  simp only [getD_set_ne C newc 0 (Ne.symm hx)]
  have hper : ∀ u ∈ Finset.range G.n,
      (if (C.set v newc).getD u 0 ≠ C.getD x 0 then Wmat G x u else 0) =
      (if C.getD u 0 ≠ C.getD x 0 then Wmat G x u else 0) +
      (if u = v then ((if newc ≠ C.getD x 0 then Wmat G x v else 0) -
        (if C.getD v 0 ≠ C.getD x 0 then Wmat G x v else 0)) else 0) := by
    intro u _
    by_cases huv : u = v
    · subst huv
      rw [getD_set_self C u newc 0 hvC, if_pos rfl]
      ring
    · rw [getD_set_ne C newc 0 (Ne.symm huv), if_neg huv, add_zero]
  rw [Finset.sum_congr rfl hper, Finset.sum_add_distrib]
  rw [Finset.sum_ite_eq' (Finset.range G.n) v]
  rw [if_pos (Finset.mem_range.mpr hvn)]

theorem sIn_erase (G : CSR) (hv : Valid G) (C : List ℕ) (v c : ℕ)
    (hvn : v < G.n) :
    sIn G C v c = ∑ u in (Finset.range G.n).erase v,
      if C.getD u 0 = c then Wmat G v u else 0 := by
  rw [sIn_eq G hv C v c hvn]
  rw [← Finset.add_sum_erase _ _ (Finset.mem_range.mpr hvn)]
  rw [if_neg (by simp)]
  rw [zero_add]
  refine Finset.sum_congr rfl (fun u hu => ?_)
  have huv : u ≠ v := Finset.ne_of_mem_erase hu
  by_cases hc : C.getD u 0 = c
  · rw [if_pos ⟨huv, hc⟩, if_pos hc]
  · rw [if_neg (fun hh => hc hh.2), if_neg hc]

theorem sumAvert_flip (G : CSR) (hv : Valid G) (hs : Symm G) (C : List ℕ)
    (v newc : ℕ) (hvn : v < G.n) (hvC : v < C.length)
    (hne : newc ≠ C.getD v 0) :
    ∑ x in Finset.range G.n, Avert G (C.set v newc) x =
      ∑ x in Finset.range G.n, Avert G C x +
        2 * (sIn G C v (C.getD v 0) - sIn G C v newc) := by
  have hmem : v ∈ Finset.range G.n := Finset.mem_range.mpr hvn
  have h1 := Avert_set_self G hv C v newc hvn hvC
  have h2 := Avert_plain_self G hv C v hvn
  have h3 : ∑ x in (Finset.range G.n).erase v, Avert G (C.set v newc) x =
      ∑ x in (Finset.range G.n).erase v, Avert G C x +
      ∑ x in (Finset.range G.n).erase v,
        ((if newc ≠ C.getD x 0 then Wmat G x v else 0) -
         (if C.getD v 0 ≠ C.getD x 0 then Wmat G x v else 0)) := by
    rw [← Finset.sum_add_distrib]
    refine Finset.sum_congr rfl (fun x hx => ?_)
    exact Avert_set_other G hv C v newc x hvn hvC (Finset.ne_of_mem_erase hx)
      (Finset.mem_range.mp (Finset.mem_of_mem_erase hx))
  have h4 : ∑ x in (Finset.range G.n).erase v,
      ((if newc ≠ C.getD x 0 then Wmat G x v else 0) -
       (if C.getD v 0 ≠ C.getD x 0 then Wmat G x v else 0)) =
      sIn G C v (C.getD v 0) - sIn G C v newc := by
    rw [sIn_erase G hv C v (C.getD v 0) hvn, sIn_erase G hv C v newc hvn]
    rw [← Finset.sum_sub_distrib]
    refine Finset.sum_congr rfl (fun x hx => ?_)
    have hxn : x < G.n := Finset.mem_range.mp (Finset.mem_of_mem_erase hx)
    have hWs : Wmat G x v = Wmat G v x := hs x hxn v hvn
    rw [hWs]
    by_cases hc1 : C.getD x 0 = C.getD v 0
    · rw [hc1]
      rw [if_pos hne]
      rw [if_neg (by simp : ¬(C.getD v 0 ≠ C.getD v 0))]
      rw [if_pos rfl]
      rw [if_neg (Ne.symm hne)]
    · by_cases hc2 : C.getD x 0 = newc
      · rw [hc2]
        rw [if_neg (by simp : ¬(newc ≠ newc))]
        rw [if_pos (Ne.symm hne)]
        rw [if_neg hne]
        rw [if_pos rfl]
      · rw [if_pos (Ne.symm hc2)]
        rw [if_pos (Ne.symm hc1)]
        rw [if_neg hc1, if_neg hc2]
        ring
  rw [← Finset.add_sum_erase _ (fun x => Avert G (C.set v newc) x) hmem]
  rw [← Finset.add_sum_erase _ (fun x => Avert G C x) hmem]
  rw [h1, h2, h3, h4]
  ring

theorem csum_set (G : CSR) (C : List ℕ) (v newc c : ℕ) (hvn : v < G.n)
    (hvC : v < C.length) :
    csum G (C.set v newc) c = csum G C c +
      ((if newc = c then vertexSum G v else 0) -
       (if C.getD v 0 = c then vertexSum G v else 0)) := by
  rw [csum, csum]
  have hper : ∀ u ∈ Finset.range G.n,
      (if (C.set v newc).getD u 0 = c then vertexSum G u else 0) =
      (if C.getD u 0 = c then vertexSum G u else 0) +
      (if u = v then ((if newc = c then vertexSum G v else 0) -
        (if C.getD v 0 = c then vertexSum G v else 0)) else 0) := by
    intro u _
    by_cases huv : u = v
    · subst huv
      rw [getD_set_self C u newc 0 hvC, if_pos rfl]
      ring
    · rw [getD_set_ne C newc 0 (Ne.symm huv), if_neg huv, add_zero]
  rw [Finset.sum_congr rfl hper, Finset.sum_add_distrib]
  rw [Finset.sum_ite_eq' (Finset.range G.n) v]
  rw [if_pos (Finset.mem_range.mpr hvn)]

theorem csum_erase (G : CSR) (C : List ℕ) (v c : ℕ) (hvn : v < G.n) :
    csum G C c = (if C.getD v 0 = c then vertexSum G v else 0) +
      ∑ u in (Finset.range G.n).erase v,
        (if C.getD u 0 = c then vertexSum G u else 0) := by
  rw [csum, ← Finset.add_sum_erase _ _ (Finset.mem_range.mpr hvn)]

theorem sumP_flip (G : CSR) (C : List ℕ) (v newc : ℕ) (hvn : v < G.n)
    (hvC : v < C.length) (hne : newc ≠ C.getD v 0) :
    ∑ x in Finset.range G.n,
      vertexSum G x * csum G (C.set v newc) ((C.set v newc).getD x 0) =
    ∑ x in Finset.range G.n, vertexSum G x * csum G C (C.getD x 0) +
      2 * vertexSum G v *
        (csum G C newc - csum G C (C.getD v 0) + vertexSum G v) := by
  have hmem : v ∈ Finset.range G.n := Finset.mem_range.mpr hvn
  have hv1 : vertexSum G v * csum G (C.set v newc) ((C.set v newc).getD v 0) =
      vertexSum G v * (csum G C newc + vertexSum G v) := by
    rw [getD_set_self C v newc 0 hvC]
    rw [csum_set G C v newc newc hvn hvC]
    rw [if_pos rfl, if_neg (Ne.symm hne)]
    ring
  have hv2 : ∀ x ∈ (Finset.range G.n).erase v,
      vertexSum G x * csum G (C.set v newc) ((C.set v newc).getD x 0) =
      vertexSum G x * csum G C (C.getD x 0) +
        ((if newc = C.getD x 0 then vertexSum G v * vertexSum G x else 0) -
         (if C.getD v 0 = C.getD x 0 then vertexSum G v * vertexSum G x
          else 0)) := by
    intro x hx
    have hxv : x ≠ v := Finset.ne_of_mem_erase hx
    rw [getD_set_ne C newc 0 (Ne.symm hxv)]
    rw [csum_set G C v newc (C.getD x 0) hvn hvC]
    by_cases hc1 : newc = C.getD x 0
    · rw [if_pos hc1, if_pos hc1]
      by_cases hc2 : C.getD v 0 = C.getD x 0
      · rw [if_pos hc2, if_pos hc2]
        ring
      · rw [if_neg hc2, if_neg hc2]
        ring
    · rw [if_neg hc1, if_neg hc1]
      by_cases hc2 : C.getD v 0 = C.getD x 0
      · rw [if_pos hc2, if_pos hc2]
        ring
      · rw [if_neg hc2, if_neg hc2]
        ring
  have hSn : ∑ x in (Finset.range G.n).erase v,
      (if C.getD x 0 = newc then vertexSum G x else 0) = csum G C newc := by
    have h := csum_erase G C v newc hvn
    rw [if_neg (Ne.symm hne)] at h
    linarith
  have hSo : ∑ x in (Finset.range G.n).erase v,
      (if C.getD x 0 = C.getD v 0 then vertexSum G x else 0) =
      csum G C (C.getD v 0) - vertexSum G v := by
    have h := csum_erase G C v (C.getD v 0) hvn
    rw [if_pos rfl] at h
    linarith
  have hv3 : ∑ x in (Finset.range G.n).erase v,
      (if newc = C.getD x 0 then vertexSum G v * vertexSum G x else 0) =
      vertexSum G v * csum G C newc := by
    rw [← hSn, Finset.mul_sum]
    refine Finset.sum_congr rfl (fun x hx => ?_)
    by_cases hc : C.getD x 0 = newc
    · rw [if_pos hc.symm, if_pos hc]
    · rw [if_neg (fun hh => hc hh.symm), if_neg hc, mul_zero]
  have hv4 : ∑ x in (Finset.range G.n).erase v,
      (if C.getD v 0 = C.getD x 0 then vertexSum G v * vertexSum G x
       else 0) =
      vertexSum G v * (csum G C (C.getD v 0) - vertexSum G v) := by
    rw [← hSo, Finset.mul_sum]
    refine Finset.sum_congr rfl (fun x hx => ?_)
    by_cases hc : C.getD x 0 = C.getD v 0
    · rw [if_pos hc.symm, if_pos hc]
    · rw [if_neg (fun hh => hc hh.symm), if_neg hc, mul_zero]
  rw [← Finset.add_sum_erase _
    (fun x => vertexSum G x *
      csum G (C.set v newc) ((C.set v newc).getD x 0)) hmem]
  rw [← Finset.add_sum_erase _
    (fun x => vertexSum G x * csum G C (C.getD x 0)) hmem]
  rw [hv1]
  rw [Finset.sum_congr rfl hv2, Finset.sum_add_distrib,
    Finset.sum_sub_distrib]
  rw [hv3, hv4]
  ring

theorem QofC_expand (m2 : ℚ) (G : CSR) (D : List ℕ) :
    QofC m2 G D =
      -((∑ x in Finset.range G.n, Avert G D x) / m2) +
      ((m2 * (∑ x in Finset.range G.n, vertexSum G x) -
        ∑ x in Finset.range G.n,
          vertexSum G x * csum G D (D.getD x 0)) / m2 ^ 2) := by
  rw [QofC]
  rw [show (∑ v in Finset.range G.n,
      (Avert G D v - vertexSum G v * (m2 - csum G D (D.getD v 0)) / m2) /
        m2) =
      ∑ v in Finset.range G.n, (Avert G D v / m2 -
        (vertexSum G v * m2 -
          vertexSum G v * csum G D (D.getD v 0)) / m2 ^ 2)
    from Finset.sum_congr rfl (fun x _ => by ring)]
  rw [Finset.sum_sub_distrib, ← Finset.sum_div, ← Finset.sum_div,
    Finset.sum_sub_distrib, ← Finset.sum_mul]
  ring

theorem QofC_flip (G : CSR) (hv : Valid G) (hs : Symm G) (m2 : ℚ)
    (hm2 : m2 ≠ 0) (C : List ℕ) (v newc : ℕ) (hvn : v < G.n)
    (hvC : v < C.length) (hne : newc ≠ C.getD v 0) :
    QofC m2 G (C.set v newc) - QofC m2 G C =
      (2 / m2) * (sIn G C v newc -
        (vertexSum G v / m2) * csum G C newc -
        (sIn G C v (C.getD v 0) -
          (vertexSum G v / m2) *
            (csum G C (C.getD v 0) - vertexSum G v))) := by
  rw [QofC_expand m2 G (C.set v newc), QofC_expand m2 G C]
  rw [sumAvert_flip G hv hs C v newc hvn hvC hne]
  rw [sumP_flip G C v newc hvn hvC hne]
  field_simp
  ring

theorem modularity_eq_QofC (m2 : ℚ) (G : CSR) (C : List ℕ) (cw : List ℚ)
    (hC : C.length = G.n)
    (hcb : ∀ i, i < C.length → C.getD i 0 < cw.length)
    (hcons : Consistent G C cw) :
    modularity m2 G C (compute_vertex_sums G) cw = QofC m2 G C := by
  rw [modularity, QofC]
  congr 1
  refine Finset.sum_congr rfl (fun x hx => ?_)
  have hxn : x < G.n := Finset.mem_range.mp hx
  rw [Qterm, compute_vertex_sums, getD_map_range (vertexSum G) G.n x 0 hxn]
  rw [hcons (C.getD x 0) (hcb x (by omega))]

theorem delta_eq_deltaF (m2 : ℚ) (G : CSR) (C : List ℕ) (cw : List ℚ)
    (hcons : Consistent G C cw) (v newc : ℕ) (hvn : v < G.n)
    (hnew : newc < cw.length) (hold : C.getD v 0 < cw.length)
    (hne : newc ≠ C.getD v 0) :
    delta_modularity m2 G C (compute_vertex_sums G) cw v newc =
      sIn G C v newc - (vertexSum G v / m2) * csum G C newc -
        (sIn G C v (C.getD v 0) -
          (vertexSum G v / m2) *
            (csum G C (C.getD v 0) - vertexSum G v)) := by
  rw [delta_modularity]
  rw [compute_vertex_sums, getD_map_range (vertexSum G) G.n v 0 hvn]
  rw [hcons newc hnew, hcons (C.getD v 0) hold]
  rw [oldClusterSum_eq_sIn G C v newc _ hne, newClusterSum_eq_sIn]

theorem processVertex_Q (G : CSR) (hv : Valid G) (hs : Symm G) (m2 : ℚ)
    (hm2 : 0 < m2) (C : List ℕ) (cw : List ℚ) (v : ℕ) (hvn : v < G.n)
    (hC : C.length = G.n)
    (hcb : ∀ i, i < C.length → C.getD i 0 < cw.length)
    (hcons : Consistent G C cw) :
    QofC m2 G (processVertex m2 G (compute_vertex_sums G) (C, cw) v).1 ≥
      QofC m2 G C ∧
    (processVertex m2 G (compute_vertex_sums G) (C, cw) v).1.length = G.n ∧
    (∀ i, i < (processVertex m2 G (compute_vertex_sums G) (C, cw) v).1.length →
      (processVertex m2 G (compute_vertex_sums G) (C, cw) v).1.getD i 0 <
      (processVertex m2 G (compute_vertex_sums G) (C, cw) v).2.length) ∧
    Consistent G (processVertex m2 G (compute_vertex_sums G) (C, cw) v).1
      (processVertex m2 G (compute_vertex_sums G) (C, cw) v).2 := by
  by_cases hb : 0 < (bestMove m2 G C (compute_vertex_sums G) cw v).1
  case neg =>
    rw [processVertex, if_neg hb]
    exact ⟨le_refl _, hC, hcb, hcons⟩
  case pos =>
    obtain ⟨loc0, hcand0, heq0, _⟩ :=
      bestMove_pos m2 G C (compute_vertex_sums G) cw v hb
    have hd0 : 0 < dlt m2 G C (compute_vertex_sums G) cw v loc0 := by
      have := congrArg Prod.fst heq0
      simp only at this
      rw [← this]
      exact hb
    obtain ⟨loc, hcand, hdpos, hmax, heq⟩ :=
      processVertex_move m2 G C (compute_vertex_sums G) cw v
        ⟨loc0, hcand0, hd0⟩
    rw [heq]
    have hindn : ind G loc < G.n :=
      ind_lt_of_mem G hv v hvn loc (Finset.mem_Ico.mpr ⟨hcand.1, hcand.2.1⟩)
    have hnew : C.getD (ind G loc) 0 < cw.length := hcb _ (by omega)
    have hold : C.getD v 0 < cw.length := hcb v (by omega)
    have hne : C.getD (ind G loc) 0 ≠ C.getD v 0 := hcand.2.2
    have hvC : v < C.length := by omega
    have hkv : (compute_vertex_sums G).getD v 0 = vertexSum G v := by
      rw [compute_vertex_sums, getD_map_range (vertexSum G) G.n v 0 hvn]
    refine ⟨?_, ?_, ?_, ?_⟩
    · have hflip := QofC_flip G hv hs m2 (ne_of_gt hm2) C v
        (C.getD (ind G loc) 0) hvn hvC hne
      have hdval : dlt m2 G C (compute_vertex_sums G) cw v loc =
          sIn G C v (C.getD (ind G loc) 0) -
            (vertexSum G v / m2) * csum G C (C.getD (ind G loc) 0) -
            (sIn G C v (C.getD v 0) -
              (vertexSum G v / m2) *
                (csum G C (C.getD v 0) - vertexSum G v)) :=
        delta_eq_deltaF m2 G C cw hcons v _ hvn hnew hold hne
      have h2m : 0 < 2 / m2 := div_pos (by norm_num) hm2
      have : 0 < QofC m2 G (C.set v (C.getD (ind G loc) 0)) - QofC m2 G C := by
        rw [hflip, ← hdval]
        exact mul_pos h2m hdpos
      linarith
    · rw [List.length_set]
      exact hC
    · intro i hi
      rw [List.length_set] at hi
      rw [List.length_set, List.length_set]
      by_cases hiv : i = v
      · subst hiv
        rw [getD_set_self C i _ 0 (by omega)]
        exact hnew
      · rw [getD_set_ne C _ 0 (Ne.symm hiv)]
        exact hcb i hi
    · intro c hc
      rw [List.length_set, List.length_set] at hc
      rw [csum_set G C v (C.getD (ind G loc) 0) c hvn hvC]
      by_cases hc1 : c = C.getD (ind G loc) 0
      · subst hc1
        rw [getD_set_self _ _ _ _ (by rw [List.length_set]; exact hnew)]
        rw [hkv, if_pos rfl, if_neg (Ne.symm hne)]
        rw [hcons _ hnew]
        ring
      · rw [getD_set_ne _ _ _ (fun hh => hc1 hh.symm)]
        by_cases hc2 : c = C.getD v 0
        · subst hc2
          rw [getD_set_self cw _ _ _ hold]
          rw [hkv, if_neg (fun hh => hc1 hh.symm), if_pos rfl]
          rw [hcons _ hold]
          ring
        · rw [getD_set_ne cw _ _ (fun hh => hc2 hh.symm)]
          rw [if_neg (fun hh => hc1 hh.symm),
            if_neg (fun hh => hc2 hh.symm)]
          rw [hcons c hc]
          ring

theorem sweepUpTo_Q (G : CSR) (hv : Valid G) (hs : Symm G) (m2 : ℚ)
    (hm2 : 0 < m2) (C : List ℕ) (cw : List ℚ) (hC : C.length = G.n)
    (hcb : ∀ i, i < C.length → C.getD i 0 < cw.length)
    (hcons : Consistent G C cw) :
    ∀ t, t ≤ G.n →
      QofC m2 G (sweepUpTo m2 G (compute_vertex_sums G) C cw t).1 ≥
        QofC m2 G C ∧
      (sweepUpTo m2 G (compute_vertex_sums G) C cw t).1.length = G.n ∧
      (∀ i, i < (sweepUpTo m2 G (compute_vertex_sums G) C cw t).1.length →
        (sweepUpTo m2 G (compute_vertex_sums G) C cw t).1.getD i 0 <
        (sweepUpTo m2 G (compute_vertex_sums G) C cw t).2.length) ∧
      Consistent G (sweepUpTo m2 G (compute_vertex_sums G) C cw t).1
        (sweepUpTo m2 G (compute_vertex_sums G) C cw t).2 := by
  intro t
  induction t with
  | zero => intro _; exact ⟨le_refl _, hC, hcb, hcons⟩
  | succ k ih =>
    intro hk
    have ihk := ih (by omega)
    have hstep : sweepUpTo m2 G (compute_vertex_sums G) C cw (k + 1) =
        processVertex m2 G (compute_vertex_sums G)
          (sweepUpTo m2 G (compute_vertex_sums G) C cw k) k := by
      rw [sweepUpTo, sweepUpTo, List.range_succ, List.foldl_append,
        List.foldl_cons, List.foldl_nil]
    have hp := processVertex_Q G hv hs m2 hm2
      (sweepUpTo m2 G (compute_vertex_sums G) C cw k).1
      (sweepUpTo m2 G (compute_vertex_sums G) C cw k).2 k (by omega)
      ihk.2.1 ihk.2.2.1 ihk.2.2.2
    rw [Prod.mk.eta] at hp
    rw [hstep]
    exact ⟨ge_trans hp.1 ihk.1, hp.2.1, hp.2.2.1, hp.2.2.2⟩

/-- Claim C5: one inner-loop iteration (a sweep followed by a modularity
evaluation) never decreases the reported modularity, under exact arithmetic
and the sweep's sequential reference semantics: for every valid symmetric
graph with `m2 > 0`, vertex weights as computed by `compute_vertex_sums`,
and cluster weights consistent with the clustering, the modularity evaluated
after `update_each_assignment_by_delta_modularity` is at least the
modularity evaluated before it. -/
theorem claim_C5 (G : CSR) (hv : Valid G) (hs : Symm G) (m2 : ℚ)
    (hm2 : 0 < m2) (C : List ℕ) (cw : List ℚ) (hC : C.length = G.n)
    (hcb : ∀ i, i < C.length → C.getD i 0 < cw.length)
    (hcons : Consistent G C cw) :
    modularity m2 G
      (update_each_assignment_by_delta_modularity m2 G
        (compute_vertex_sums G) C cw).1 (compute_vertex_sums G)
      (update_each_assignment_by_delta_modularity m2 G
        (compute_vertex_sums G) C cw).2 ≥
    modularity m2 G C (compute_vertex_sums G) cw := by
  have hsw := sweepUpTo_Q G hv hs m2 hm2 C cw hC hcb hcons G.n le_rfl
  have he : update_each_assignment_by_delta_modularity m2 G
      (compute_vertex_sums G) C cw =
      sweepUpTo m2 G (compute_vertex_sums G) C cw G.n := rfl
  rw [he]
  rw [modularity_eq_QofC m2 G _ _ hsw.2.1 hsw.2.2.1 hsw.2.2.2]
  rw [modularity_eq_QofC m2 G C cw hC hcb hcons]
  exact hsw.1

/-- Witness for C5: the triangle `K3` with unit weights, identity
clustering, and consistent vertex/cluster weights. -/
theorem claim_C5_witness :
    (Valid ⟨[0,2,4,6], [1,2,0,2,0,1], [1,1,1,1,1,1], 3, 6⟩ ∧
      Symm ⟨[0,2,4,6], [1,2,0,2,0,1], [1,1,1,1,1,1], 3, 6⟩ ∧
      (0:ℚ) < 6 ∧ ([0,1,2] : List ℕ).length = 3 ∧
      (∀ i, i < ([0,1,2] : List ℕ).length →
        ([0,1,2] : List ℕ).getD i 0 < ([2,2,2] : List ℚ).length) ∧
      Consistent ⟨[0,2,4,6], [1,2,0,2,0,1], [1,1,1,1,1,1], 3, 6⟩ [0,1,2]
        [2,2,2]) ∧
    modularity 6 ⟨[0,2,4,6], [1,2,0,2,0,1], [1,1,1,1,1,1], 3, 6⟩
      (update_each_assignment_by_delta_modularity 6
        ⟨[0,2,4,6], [1,2,0,2,0,1], [1,1,1,1,1,1], 3, 6⟩
        (compute_vertex_sums
          ⟨[0,2,4,6], [1,2,0,2,0,1], [1,1,1,1,1,1], 3, 6⟩) [0,1,2]
        [2,2,2]).1
      (compute_vertex_sums ⟨[0,2,4,6], [1,2,0,2,0,1], [1,1,1,1,1,1], 3, 6⟩)
      (update_each_assignment_by_delta_modularity 6
        ⟨[0,2,4,6], [1,2,0,2,0,1], [1,1,1,1,1,1], 3, 6⟩
        (compute_vertex_sums
          ⟨[0,2,4,6], [1,2,0,2,0,1], [1,1,1,1,1,1], 3, 6⟩) [0,1,2]
        [2,2,2]).2 ≥
    modularity 6 ⟨[0,2,4,6], [1,2,0,2,0,1], [1,1,1,1,1,1], 3, 6⟩ [0,1,2]
      (compute_vertex_sums ⟨[0,2,4,6], [1,2,0,2,0,1], [1,1,1,1,1,1], 3, 6⟩)
      [2,2,2] :=
  ⟨⟨by with_unfolding_all decide, by with_unfolding_all decide,
    by norm_num, by decide, by decide, by with_unfolding_all decide⟩,
    claim_C5 ⟨[0,2,4,6], [1,2,0,2,0,1], [1,1,1,1,1,1], 3, 6⟩
      (by with_unfolding_all decide) (by with_unfolding_all decide) 6
      (by norm_num) [0,1,2] [2,2,2] (by decide) (by decide)
      (by with_unfolding_all decide)⟩

end CuLouvain
